import Mathlib

/-!
Verification of the LightDancer signal-processing and LED-output core.

This file gives a shallow embedding, in Lean 4, of the parts of the
repository that the specification talks about:

* `src/draw.h` — the `Frame` pixel buffer (its constructor clamp),
* `src/fixedpoint_fft.h` — the fixed-point FFT engine (`FixedPointFFT`):
  Q15 saturating arithmetic, the fixed-point sine, window coefficients,
  bit reversal, the staged butterfly loop with its block-floating-point
  rescale guard, and the two magnitude output paths,
* `src/leds/ws2811pio/ws2811pio.h` — the WS2811 transmission channel
  (whose implementation file is not part of the sources; it is modelled
  from the specification where needed).

C semantics are embedded as unbounded `Int` arithmetic with the
conversions made explicit: C `>>` on a signed value is an arithmetic
(floor) shift, which is exactly `Int` `>>>`; C `/` truncates toward zero,
which is `Int.tdiv`; a store into an `int16_t` or conversion to an
unsigned type reduces modulo the corresponding power of two.  All `int32_t`
and `int64_t` intermediates in the translated functions stay far inside
their ranges for every instantiable parameter set (`N` is a `uint16_t`
power of two, so `scale_count ≤ 15` and every rescaled magnitude is below
`2^31`), so plain `Int` models them exactly.
-/

/-! ## Pixel frame buffer (src/draw.h) -/

def MAX_LEDS : Int := 3800

def MULTIPLE_OF_FOUR (n : Int) : Int := ((n + 3).tdiv 4) * 4

def MAX_LED_DATA_LEN : Int := MULTIPLE_OF_FOUR MAX_LEDS

/-- C conversion of a signed `int` to `unsigned int`: reduction modulo 2^32.
This happens when `Frame`'s `num_leds` member (an `unsigned int`) is
initialized from the `int` result of `std::min`. -/
def toUInt32c (x : Int) : Nat := (x % 4294967296).toNat

/-- C conversion of a signed `int` to `size_t`: reduction modulo 2^64.
This happens when the `etl::span` view is constructed from the signed
count `num_of_leds`. -/
def toSizeT (x : Int) : Nat := (x % 18446744073709551616).toNat

/-- The observable state of a constructed `Frame`: the length of the
`data` span view and the `num_leds` member. -/
structure Frame where
  data_len : Nat
  num_leds : Nat
deriving DecidableEq, Repr

/-- Embedding of the constructor `Frame::Frame(int num_of_leds)`:
`data(&inner_data_[0], num_of_leds)` builds the span view with the raw
(unclamped) request, while `num_leds(std::min(num_of_leds, MAX_LEDS))`
stores the clamped value converted to `unsigned int`. -/
def Frame.make (num_of_leds : Int) : Frame :=
  { data_len := toSizeT num_of_leds
    num_leds := toUInt32c (min num_of_leds MAX_LEDS) }

/-! ## Q15 saturating primitives (src/fixedpoint_fft.h) -/

def Q15_ONE : Int := 32767

/-- Embedding of `mul_q15`: 32-bit product, arithmetic right shift by 15,
then clamp to `[-32768, 32767]`. -/
def mul_q15 (a b : Int) : Int :=
  let result := (a * b) >>> (15 : Nat)
  if result > Q15_ONE then Q15_ONE
  else if result < -32768 then -32768
  else result

/-- Embedding of `add_sat`: exact sum clamped to `[-32768, 32767]`. -/
def add_sat (a b : Int) : Int :=
  let result := a + b
  if result > Q15_ONE then Q15_ONE
  else if result < -32768 then -32768
  else result

/-- Embedding of `sub_sat`: exact difference clamped to `[-32768, 32767]`. -/
def sub_sat (a b : Int) : Int :=
  let result := a - b
  if result > Q15_ONE then Q15_ONE
  else if result < -32768 then -32768
  else result

/-! ## Fixed-point sine and cosine (src/fixedpoint_fft.h)

The two `while` loops that fold the angle into `[-Q15_ONE, Q15_ONE]` are
embedded as fuel-indexed structural recursions; the fuel `|angle|.toNat`
always suffices because every iteration moves the angle by `2 * Q15_ONE =
65534 ≥ 1` toward the target interval, and the loops are run in the same
sequential order as in the source. -/

/-- Loop `while (angle_q15 > Q15_ONE) angle_q15 -= 2 * Q15_ONE`. -/
def normPiAux : Nat → Int → Int
  | 0, a => a
  | fuel + 1, a => if a > Q15_ONE then normPiAux fuel (a - 2 * Q15_ONE) else a

def normPi (a : Int) : Int := normPiAux a.toNat a

/-- Loop `while (angle_q15 < -Q15_ONE) angle_q15 += 2 * Q15_ONE`. -/
def normNegPiAux : Nat → Int → Int
  | 0, a => a
  | fuel + 1, a => if a < -Q15_ONE then normNegPiAux fuel (a + 2 * Q15_ONE) else a

def normNegPi (a : Int) : Int := normNegPiAux (-a).toNat a

/-- The sign and reflection folding of `sin_q15`: take the absolute value
of the normalized angle, then reflect anything past π/2 (`Q15_ONE >> 1`). -/
def sin_fold (a1 : Int) : Int :=
  let a2 := if a1 < 0 then -a1 else a1
  if a2 > (Q15_ONE >>> (1 : Nat)) then Q15_ONE - a2 else a2

/-- The Taylor polynomial of `sin_q15`: `x - x³/6 + x⁵/120` with Q15
fixed-point powers and C truncating division by the constants. -/
def sin_taylor (x : Int) : Int :=
  let x2 := (x * x) >>> (15 : Nat)
  let x3 := (x2 * x) >>> (15 : Nat)
  let x5 := (x3 * x2) >>> (15 : Nat)
  x - x3.tdiv 6 + x5.tdiv 120

/-- The final clamp of `sin_q15` to `[-Q15_ONE, Q15_ONE]` (two sequential
conditionals, as in the source). -/
def sin_clamp (result : Int) : Int :=
  let result1 := if result > Q15_ONE then Q15_ONE else result
  if result1 < -Q15_ONE then -Q15_ONE else result1

/-- Embedding of `sin_q15`: normalize the angle, use sign and reflection
symmetry, then the 5th-order Taylor polynomial with Q15 fixed-point
products, and clamp the result to `[-Q15_ONE, Q15_ONE]`. -/
def sin_q15 (angle_q15 : Int) : Int :=
  let a1 := normNegPi (normPi angle_q15)
  let negate := a1 < 0
  let result2 := sin_clamp (sin_taylor (sin_fold a1))
  if negate then -result2 else result2

/-- Embedding of `cos_q15`: `sin_q15(x + π/2)` where π/2 is `Q15_ONE >> 1`. -/
def cos_q15 (angle_q15 : Int) : Int := sin_q15 (angle_q15 + (Q15_ONE >>> (1 : Nat)))

/-! ## Claims about the pixel frame buffer -/

/-- C1: the claim states that the exposed `data` view has length
`num_leds`, hence never exceeds the backing capacity.  The code instead
builds the span with the raw request: at the failing input 3801 the
constructor stores the clamped `num_leds = 3800`, but the `data` view has
length 3801, exceeding the backing capacity `MAX_LED_DATA_LEN = 3800`.
This contradicts the constructor's own documentation ("capped to MAX_LEDS
to prevent stack overrun"). -/
theorem C1_frame_view_length : (Frame.make 3801).num_leds = 3800 ∧
    (Frame.make 3801).data_len = 3801 ∧ MAX_LED_DATA_LEN = 3800 ∧
    ¬ ((Frame.make 3801).data_len = (Frame.make 3801).num_leds) := by
  refine ⟨by decide, by decide, by decide, by decide⟩

/-- C10: for a negative requested LED count, `std::min` selects the
negative value and its conversion to the `unsigned int` member yields the
request modulo 2^32, which is far larger than `MAX_LEDS`. -/
theorem C10_negative_request_wraps (r : Int) (h1 : -2147483648 ≤ r) (h2 : r < 0) :
    (Frame.make r).num_leds = (r + 4294967296).toNat ∧
    3800 < ((Frame.make r).num_leds : Int) := by
  have hmin : min r MAX_LEDS = r := min_eq_left (by unfold MAX_LEDS; omega)
  simp only [Frame.make, toUInt32c, hmin]
  omega

/-- Witness for C10 at the concrete request -5: the stored count is
2^32 - 5 = 4294967291, far above the maximum. -/
theorem C10_negative_request_wraps_witness :
    (Frame.make (-5)).num_leds = ((-5 : Int) + 4294967296).toNat ∧
    3800 < ((Frame.make (-5)).num_leds : Int) :=
  C10_negative_request_wraps (-5) (by decide) (by decide)

/-! ## Claim about the Q15 primitives -/

/-- C4: for all int16_t operands, `add_sat` and `sub_sat` return the exact
sum and difference clamped into `[-32768, 32767]`, and `mul_q15` returns
the exact product arithmetically shifted right by 15 bits (floor division
by 2^15) then clamped into `[-32768, 32767]`; every result lies in the
int16_t range, so no operation wraps modulo 2^16. -/
theorem C4_saturating_arithmetic (a b : Int)
    (ha : -32768 ≤ a ∧ a ≤ 32767) (hb : -32768 ≤ b ∧ b ≤ 32767) :
    add_sat a b = max (-32768) (min 32767 (a + b)) ∧
    sub_sat a b = max (-32768) (min 32767 (a - b)) ∧
    mul_q15 a b = max (-32768) (min 32767 ((a * b) / 32768)) ∧
    (-32768 ≤ add_sat a b ∧ add_sat a b ≤ 32767) ∧
    (-32768 ≤ sub_sat a b ∧ sub_sat a b ≤ 32767) ∧
    (-32768 ≤ mul_q15 a b ∧ mul_q15 a b ≤ 32767) := by
  have hshift : (a * b) >>> (15 : Nat) = (a * b) / 32768 := by
    rw [Int.shiftRight_eq_div_pow]; norm_num
  simp only [add_sat, sub_sat, mul_q15, Q15_ONE, hshift]
  refine ⟨?_, ?_, ?_, ?_, ?_, ?_⟩ <;> split_ifs <;> omega

/-- Witness for C4 at concrete operands exercising both saturation rails
and the fractional multiply. -/
theorem C4_saturating_arithmetic_witness :
    add_sat 30000 30000 = max (-32768) (min 32767 (30000 + 30000)) ∧
    sub_sat (-30000) 30000 = max (-32768) (min 32767 ((-30000) - 30000)) ∧
    mul_q15 (-32768) (-32768) = max (-32768) (min 32767 (((-32768) * (-32768)) / 32768)) ∧
    (-32768 ≤ add_sat 30000 30000 ∧ add_sat 30000 30000 ≤ 32767) ∧
    (-32768 ≤ sub_sat (-30000) 30000 ∧ sub_sat (-30000) 30000 ≤ 32767) ∧
    (-32768 ≤ mul_q15 (-32768) (-32768) ∧ mul_q15 (-32768) (-32768) ≤ 32767) := by
  have h1 := C4_saturating_arithmetic 30000 30000 ⟨by decide, by decide⟩ ⟨by decide, by decide⟩
  have h2 := C4_saturating_arithmetic (-30000) 30000 ⟨by decide, by decide⟩ ⟨by decide, by decide⟩
  have h3 := C4_saturating_arithmetic (-32768) (-32768) ⟨by decide, by decide⟩ ⟨by decide, by decide⟩
  exact ⟨h1.1, h2.2.1, h3.2.2.1, h1.2.2.2.1, h2.2.2.2.2.1, h3.2.2.2.2.2⟩

/-! ## Magnitude computation and uint16 normalization (src/fixedpoint_fft.h)

The per-bin magnitude approximation `max(|re|,|im|) + min(|re|,|im|)/2`
appears verbatim in both `compute_magnitude` and
`normalize_magnitudes_uint16`; it is factored into `mag_approx`.  The C
left shift `mag << scale_count` acts on a nonnegative value (an `int64_t`
in `compute_magnitude`, an `int32_t` in the normalization), where it is
exact multiplication by `2 ^ scale_count`. -/

def mag_approx (real_val imag_val : Int) : Int :=
  let r := if real_val < 0 then -real_val else real_val
  let im := if imag_val < 0 then -imag_val else imag_val
  let max_val := if r > im then r else im
  let min_val := if r < im then r else im
  max_val + (min_val >>> (1 : Nat))

inductive OutputType where
  | u16
  | u32
deriving DecidableEq, Repr

/-- Embedding of `compute_magnitude`: rescale the magnitude approximation
by the block-floating-point scale count and clamp to the output range. -/
def compute_magnitude (ot : OutputType) (real_val imag_val : Int) (scale_count : Nat) : Int :=
  let scaled_mag := mag_approx real_val imag_val * 2 ^ scale_count
  match ot with
  | .u16 => if scaled_mag > 65535 then 65535 else if scaled_mag < 0 then 0 else scaled_mag
  | .u32 =>
    if scaled_mag > 4294967295 then 4294967295 else if scaled_mag < 0 then 0 else scaled_mag

/-- First pass of `normalize_magnitudes_uint16`: find the maximum rescaled
magnitude over bins `0 .. N/2`. -/
def max_magnitude_pass (N : Nat) (real imag : List Int) (scale_count : Nat) : Int :=
  (List.range (N / 2 + 1)).foldl
    (fun mx i =>
      let mag := mag_approx (real.getD i 0) (imag.getD i 0) * 2 ^ scale_count
      if mag > mx then mag else mx) 0

/-- Loop `while (temp > 52428) { temp >>= 1; norm_shift++; }`, embedded
with fuel; `temp.toNat` iterations always suffice since the loop halves a
positive value. -/
def norm_shift_loop : Nat → Int → Nat → Nat
  | 0, _, norm_shift => norm_shift
  | fuel + 1, temp, norm_shift =>
    if temp > 52428 then norm_shift_loop fuel (temp >>> (1 : Nat)) (norm_shift + 1)
    else norm_shift

/-- The `norm_shift` computed by `normalize_magnitudes_uint16`: zero
unless the peak exceeds 52428 (80% of 65535). -/
def norm_shift_pass (N : Nat) (real imag : List Int) (scale_count : Nat) : Nat :=
  if max_magnitude_pass N real imag scale_count > 52428 then
    norm_shift_loop (max_magnitude_pass N real imag scale_count).toNat
      (max_magnitude_pass N real imag scale_count) 0
  else 0

/-- Embedding of `normalize_magnitudes_uint16`: second pass recomputes
each bin's rescaled magnitude, applies the uniform `norm_shift`, and
clamps to the 16-bit range. -/
def normalize_magnitudes_uint16 (N : Nat) (real imag : List Int) (scale_count : Nat) :
    List Int :=
  let norm_shift := norm_shift_pass N real imag scale_count
  (List.range (N / 2 + 1)).map (fun i =>
    let mag := (mag_approx (real.getD i 0) (imag.getD i 0) * 2 ^ scale_count) >>> norm_shift
    if mag > 65535 then 65535 else if mag < 0 then 0 else mag)

/-! ## Specification-side description of the uint16 normalization -/

/-- Clamp to the 16-bit output range, as the specification words it. -/
def clamp_u16 (x : Int) : Int := if x > 65535 then 65535 else if x < 0 then 0 else x

/-- The rescaled magnitude of one bin, as the specification words it. -/
def rescaled_mag (real imag : List Int) (scale_count : Nat) (i : Nat) : Int :=
  mag_approx (real.getD i 0) (imag.getD i 0) * 2 ^ scale_count

/-- Spec wording, pass 1: the peak rescaled magnitude across all N/2+1 bins. -/
def spec_peak (N : Nat) (real imag : List Int) (scale_count : Nat) : Int :=
  ((List.range (N / 2 + 1)).map (rescaled_mag real imag scale_count)).foldl max 0

theorem exists_shift_le_threshold (peak : Int) : ∃ s : Nat, peak >>> s ≤ 52428 := by
  refine ⟨peak.toNat, ?_⟩
  rw [Int.shiftRight_eq_div_pow]
  have hd : (0:Int) < ((2 ^ peak.toNat : Nat) : Int) := by
    exact_mod_cast Nat.pos_pow_of_pos peak.toNat (by omega)
  rcases le_or_lt peak 0 with h | h
  · have h0 : peak / ((2 ^ peak.toNat : Nat) : Int) ≤ 0 / ((2 ^ peak.toNat : Nat) : Int) :=
      Int.ediv_le_ediv hd h
    rw [Int.zero_ediv] at h0
    omega
  · have h2 : peak < ((2 ^ peak.toNat : Nat) : Int) := by
      have h1 : peak.toNat < 2 ^ peak.toNat := Nat.lt_two_pow _
      omega
    rw [Int.ediv_eq_zero_of_lt (le_of_lt h) h2]
    omega

/-- Spec wording: the minimum uniform right-shift bringing the peak to or
under the threshold 52428. -/
def spec_min_shift (peak : Int) : Nat := Nat.find (exists_shift_le_threshold peak)

/-- Spec wording of the whole two-pass narrow-output normalization:
pass 1 computes the peak; if and only if the peak exceeds 80% of 65535
the minimum uniform shift is used; pass 2 applies that shift to every bin
and clamps. -/
def normalize_uint16_spec (N : Nat) (real imag : List Int) (scale_count : Nat) : List Int :=
  let peak := spec_peak N real imag scale_count
  let shift := if peak > 52428 then spec_min_shift peak else 0
  (List.range (N / 2 + 1)).map (fun i => clamp_u16 (rescaled_mag real imag scale_count i >>> shift))

/-! ## Helper lemmas about fold maxima and the shift loop -/

theorem foldl_if_gt_eq_foldl_max (f : Nat → Int) (l : List Nat) (init : Int) :
    l.foldl (fun mx i => if f i > mx then f i else mx) init =
      (l.map f).foldl max init := by
  induction l generalizing init with
  | nil => rfl
  | cons x xs ih =>
    simp only [List.foldl, List.map]
    rw [ih]
    congr 1
    split_ifs <;> omega

theorem le_foldl_max (l : List Int) (init : Int) : init ≤ l.foldl max init := by
  induction l generalizing init with
  | nil => simp
  | cons x xs ih => exact le_trans (le_max_left init x) (ih (max init x))

theorem elem_le_foldl_max (l : List Int) (init : Int) (x : Int) (hx : x ∈ l) :
    x ≤ l.foldl max init := by
  induction l generalizing init with
  | nil => cases hx
  | cons y ys ih =>
    rcases List.mem_cons.mp hx with rfl | h
    · exact le_trans (le_max_right init x) (le_foldl_max ys (max init x))
    · exact ih (max init y) h

theorem foldl_max_le (l : List Int) (init M : Int) (hinit : init ≤ M)
    (hl : ∀ x ∈ l, x ≤ M) : l.foldl max init ≤ M := by
  induction l generalizing init with
  | nil => simpa using hinit
  | cons y ys ih =>
    refine ih (max init y) (max_le hinit (hl y (by simp))) ?_
    exact fun x hx => hl x (by simp [hx])

theorem foldl_max_mem (l : List Int) (init : Int) :
    l.foldl max init = init ∨ l.foldl max init ∈ l := by
  induction l generalizing init with
  | nil => left; rfl
  | cons y ys ih =>
    rcases ih (max init y) with h | h
    · rcases le_or_lt y init with hy | hy
      · left; rw [List.foldl, h, max_eq_left hy]
      · right; rw [List.foldl, h, max_eq_right (le_of_lt hy)]; simp
    · right; simp [h]

theorem shiftRight_succ_comm (t : Int) (s : Nat) : t >>> (s + 1) = (t >>> (1 : Nat)) >>> s := by
  rw [Nat.add_comm, Int.shiftRight_add]

theorem spec_min_shift_pos_step (t : Int) (ht : t > 52428) :
    spec_min_shift t = spec_min_shift (t >>> (1 : Nat)) + 1 := by
  unfold spec_min_shift
  rw [Nat.find_eq_iff]
  constructor
  · rw [shiftRight_succ_comm]
    exact Nat.find_spec (exists_shift_le_threshold (t >>> (1 : Nat)))
  · intro n hn
    match n with
    | 0 =>
      simp only [Int.shiftRight_eq_div_pow, pow_zero, Nat.cast_one, Int.ediv_one]
      omega
    | k + 1 =>
      rw [shiftRight_succ_comm]
      exact Nat.find_min (exists_shift_le_threshold (t >>> (1 : Nat))) (by omega)

theorem spec_min_shift_zero (t : Int) (ht : t ≤ 52428) : spec_min_shift t = 0 := by
  unfold spec_min_shift
  rw [Nat.find_eq_zero]
  simp only [Int.shiftRight_eq_div_pow, pow_zero, Nat.cast_one, Int.ediv_one]
  omega

theorem norm_shift_loop_eq (fuel : Nat) (t : Int) (s : Nat)
    (hfuel : t < 52429 * 2 ^ fuel) :
    norm_shift_loop fuel t s = s + spec_min_shift t := by
  induction fuel generalizing t s with
  | zero =>
    have ht : t ≤ 52428 := by omega
    rw [norm_shift_loop, spec_min_shift_zero t ht]
    omega
  | succ fuel ih =>
    rw [pow_succ] at hfuel
    rw [norm_shift_loop]
    split_ifs with h
    · have hhalf : t >>> (1 : Nat) < 52429 * 2 ^ fuel := by
        have h1 : t >>> (1 : Nat) = t / 2 := by
          rw [Int.shiftRight_eq_div_pow]; norm_num
        rw [h1]
        omega
      rw [ih (t >>> (1:Nat)) (s+1) hhalf, spec_min_shift_pos_step t h]
      omega
    · rw [spec_min_shift_zero t (by omega)]
      omega

theorem spec_peak_nonneg (N : Nat) (real imag : List Int) (scale_count : Nat) :
    0 ≤ spec_peak N real imag scale_count :=
  le_foldl_max _ 0

theorem max_magnitude_pass_eq_spec_peak (N : Nat) (real imag : List Int) (scale_count : Nat) :
    max_magnitude_pass N real imag scale_count = spec_peak N real imag scale_count := by
  unfold max_magnitude_pass spec_peak
  exact foldl_if_gt_eq_foldl_max (rescaled_mag real imag scale_count) _ 0

theorem lt_threshold_mul_two_pow_toNat (t : Int) : t < 52429 * 2 ^ t.toNat := by
  have h1 : t.toNat < 2 ^ t.toNat := Nat.lt_two_pow _
  have h2 : ((2:Nat) ^ t.toNat : Int) = (2:Int) ^ t.toNat := by push_cast; ring
  have h3 : (0:Int) < 2 ^ t.toNat := by positivity
  have h4 : t ≤ (t.toNat : Int) := Int.self_le_toNat t
  have h5 : ((t.toNat : Nat) : Int) < ((2 ^ t.toNat : Nat) : Int) := by exact_mod_cast h1
  nlinarith

theorem norm_shift_pass_eq (N : Nat) (real imag : List Int) (scale_count : Nat) :
    norm_shift_pass N real imag scale_count =
      (if spec_peak N real imag scale_count > 52428
       then spec_min_shift (spec_peak N real imag scale_count) else 0) := by
  unfold norm_shift_pass
  rw [max_magnitude_pass_eq_spec_peak]
  split_ifs with h
  · rw [norm_shift_loop_eq _ _ 0 (lt_threshold_mul_two_pow_toNat _)]
    omega
  · rfl

theorem two_pow_cast_pos (s : Nat) : (0:Int) < ((2 ^ s : Nat) : Int) := by
  exact_mod_cast Nat.pos_pow_of_pos s (by omega)

theorem shiftRight_mono (a b : Int) (s : Nat) (h : a ≤ b) : a >>> s ≤ b >>> s := by
  rw [Int.shiftRight_eq_div_pow, Int.shiftRight_eq_div_pow]
  exact Int.ediv_le_ediv (two_pow_cast_pos s) h

theorem shiftRight_nonneg_of_nonneg (a : Int) (s : Nat) (h : 0 ≤ a) : 0 ≤ a >>> s := by
  rw [Int.shiftRight_eq_div_pow]
  exact Int.ediv_nonneg h (le_of_lt (two_pow_cast_pos s))

theorem mag_approx_nonneg (real_val imag_val : Int) : 0 ≤ mag_approx real_val imag_val := by
  simp only [mag_approx, Int.shiftRight_eq_div_pow, pow_one, Nat.cast_ofNat]
  split_ifs <;> omega

theorem rescaled_mag_nonneg (real imag : List Int) (scale_count : Nat) (i : Nat) :
    0 ≤ rescaled_mag real imag scale_count i := by
  unfold rescaled_mag
  have := mag_approx_nonneg (real.getD i 0) (imag.getD i 0)
  positivity

theorem rescaled_mag_le_peak (N : Nat) (real imag : List Int) (scale_count : Nat) (i : Nat)
    (hi : i < N / 2 + 1) :
    rescaled_mag real imag scale_count i ≤ spec_peak N real imag scale_count := by
  refine elem_le_foldl_max _ 0 _ ?_
  exact List.mem_map_of_mem _ (List.mem_range.mpr hi)

theorem peak_shifted_le_threshold (N : Nat) (real imag : List Int) (scale_count : Nat) :
    spec_peak N real imag scale_count >>> norm_shift_pass N real imag scale_count ≤ 52428 := by
  rw [norm_shift_pass_eq]
  split_ifs with h
  · exact Nat.find_spec (exists_shift_le_threshold (spec_peak N real imag scale_count))
  · simp only [Int.shiftRight_eq_div_pow, pow_zero, Nat.cast_one, Int.ediv_one]
    omega

/-- The maximum entry of the normalized output equals the peak shifted by
the uniform normalization shift (the clamps never bind). -/
theorem normalize_output_peak (N : Nat) (real imag : List Int) (scale_count : Nat) :
    (normalize_magnitudes_uint16 N real imag scale_count).foldl max 0 =
      spec_peak N real imag scale_count >>> norm_shift_pass N real imag scale_count := by
  have hle := peak_shifted_le_threshold N real imag scale_count
  have hpk := spec_peak_nonneg N real imag scale_count
  have hout : normalize_magnitudes_uint16 N real imag scale_count =
      (List.range (N / 2 + 1)).map
        (fun i => rescaled_mag real imag scale_count i >>>
          norm_shift_pass N real imag scale_count) := by
    simp only [normalize_magnitudes_uint16]
    refine List.map_congr_left ?_
    intro i hi
    have h0 : 0 ≤ rescaled_mag real imag scale_count i >>>
        norm_shift_pass N real imag scale_count :=
      shiftRight_nonneg_of_nonneg _ _ (rescaled_mag_nonneg real imag scale_count i)
    have h1 : rescaled_mag real imag scale_count i >>>
        norm_shift_pass N real imag scale_count ≤ 52428 :=
      le_trans (shiftRight_mono _ _ _
        (rescaled_mag_le_peak N real imag scale_count i (List.mem_range.mp hi))) hle
    simp only [rescaled_mag] at h0 h1 ⊢
    split_ifs <;> omega
  rw [hout]
  apply le_antisymm
  · refine foldl_max_le _ 0 _ ?_ ?_
    · exact shiftRight_nonneg_of_nonneg _ _ hpk
    · intro x hx
      rcases List.mem_map.mp hx with ⟨i, hi, rfl⟩
      exact shiftRight_mono _ _ _
        (rescaled_mag_le_peak N real imag scale_count i (List.mem_range.mp hi))
  · rcases foldl_max_mem ((List.range (N / 2 + 1)).map (rescaled_mag real imag scale_count)) 0
      with h | h
    · unfold spec_peak at hpk ⊢
      rw [h]
      have h0 : (0:Int) >>> norm_shift_pass N real imag scale_count = 0 := by
        simp [Int.shiftRight_eq_div_pow]
      rw [h0]
      exact le_foldl_max _ 0
    · rcases List.mem_map.mp h with ⟨i, hi, heq⟩
      have : rescaled_mag real imag scale_count i >>>
          norm_shift_pass N real imag scale_count ∈
          (List.range (N / 2 + 1)).map
            (fun i => rescaled_mag real imag scale_count i >>>
              norm_shift_pass N real imag scale_count) :=
        List.mem_map_of_mem _ hi
      have hup : spec_peak N real imag scale_count >>>
          norm_shift_pass N real imag scale_count =
          rescaled_mag real imag scale_count i >>>
            norm_shift_pass N real imag scale_count := by
        unfold spec_peak
        rw [heq]
      rw [hup]
      exact elem_le_foldl_max _ 0 _ this

/-! ## Claims about the uint16 normalization -/

/-- C3: the uint16 normalization is two-pass: pass 1 computes the peak
rescaled magnitude over all N/2+1 bins; if and only if that peak exceeds
80% of 65535 (that is, 52428) the minimum uniform right-shift bringing the
peak to or under that threshold is used; pass 2 applies that same shift to
every bin and clamps each result to the 16-bit range.  The code function
equals the specification-side function `normalize_uint16_spec` built
literally from that description, and its shift is exactly the conditional
minimum shift. -/
theorem C3_two_pass_normalization (N : Nat) (real imag : List Int) (scale_count : Nat) :
    normalize_magnitudes_uint16 N real imag scale_count =
      normalize_uint16_spec N real imag scale_count ∧
    norm_shift_pass N real imag scale_count =
      (if spec_peak N real imag scale_count > 52428
       then spec_min_shift (spec_peak N real imag scale_count) else 0) := by
  refine ⟨?_, norm_shift_pass_eq N real imag scale_count⟩
  simp only [normalize_magnitudes_uint16, normalize_uint16_spec, clamp_u16, rescaled_mag,
    norm_shift_pass_eq]

/-- C2 counterexample: the claim, read on the code, is false in both of
its branches.  With one active bin holding 32767 and scale count 2 the
peak rescaled magnitude 131068 exceeds the 16-bit range, yet the
normalized peak is 32767, not greater than 52428.  With one active bin
holding 30000 and scale count 1 the peak 60000 does not exceed the 16-bit
range, yet a shift of 1 is applied and the output bin 30000 differs from
the clamped un-normalized value 60000. -/
theorem C2_counterexample :
    (max_magnitude_pass 2 [32767, 0] [0, 0] 2 > 65535 ∧
      ¬ (52428 < (normalize_magnitudes_uint16 2 [32767, 0] [0, 0] 2).foldl max 0)) ∧
    (¬ (max_magnitude_pass 2 [30000, 0] [0, 0] 1 > 65535) ∧
      norm_shift_pass 2 [30000, 0] [0, 0] 1 ≠ 0 ∧
      normalize_magnitudes_uint16 2 [30000, 0] [0, 0] 1 ≠
        (List.range 2).map (fun i => clamp_u16 (rescaled_mag [30000, 0] [0, 0] 1 i))) := by
  refine ⟨⟨by decide, by decide⟩, by decide, by decide, by decide⟩

/-- C2 (amended): for uint16 output, whenever the peak rescaled magnitude
across the N/2+1 bins exceeds 80% of the 16-bit range (52428), the uniform
normalization shift is at least one and leaves the normalized peak
≤ 52428 and ≥ 26214; whenever it does not, no shift is applied and every
bin equals its un-normalized value clamped to the 16-bit range. -/
theorem C2_normalization_amended (N : Nat) (real imag : List Int) (scale_count : Nat) :
    (max_magnitude_pass N real imag scale_count > 52428 →
      1 ≤ norm_shift_pass N real imag scale_count ∧
      (normalize_magnitudes_uint16 N real imag scale_count).foldl max 0 ≤ 52428 ∧
      26214 ≤ (normalize_magnitudes_uint16 N real imag scale_count).foldl max 0) ∧
    (max_magnitude_pass N real imag scale_count ≤ 52428 →
      norm_shift_pass N real imag scale_count = 0 ∧
      normalize_magnitudes_uint16 N real imag scale_count =
        (List.range (N / 2 + 1)).map
          (fun i => clamp_u16 (rescaled_mag real imag scale_count i))) := by
  rw [max_magnitude_pass_eq_spec_peak]
  constructor
  · intro hpk
    have hshift : norm_shift_pass N real imag scale_count =
        spec_min_shift (spec_peak N real imag scale_count) := by
      rw [norm_shift_pass_eq, if_pos hpk]
    have hs1 : 1 ≤ spec_min_shift (spec_peak N real imag scale_count) := by
      rcases Nat.eq_zero_or_pos (spec_min_shift (spec_peak N real imag scale_count)) with h0 | h0
      · exfalso
        have := (Nat.find_eq_zero
          (exists_shift_le_threshold (spec_peak N real imag scale_count))).mp h0
        simp only [Int.shiftRight_eq_div_pow, pow_zero, Nat.cast_one, Int.ediv_one] at this
        omega
      · omega
    refine ⟨hshift ▸ hs1, ?_, ?_⟩
    · rw [normalize_output_peak]
      exact peak_shifted_le_threshold N real imag scale_count
    · rw [normalize_output_peak, hshift]
      have hs2 : spec_min_shift (spec_peak N real imag scale_count) - 1 <
          spec_min_shift (spec_peak N real imag scale_count) := by omega
      have hmin := Nat.find_min
        (exists_shift_le_threshold (spec_peak N real imag scale_count)) hs2
      have hdec : spec_peak N real imag scale_count >>>
          spec_min_shift (spec_peak N real imag scale_count) =
          (spec_peak N real imag scale_count >>>
            (spec_min_shift (spec_peak N real imag scale_count) - 1)) >>> (1:Nat) := by
        rw [← Int.shiftRight_add]
        congr 1
        omega
      rw [hdec]
      simp only [not_le] at hmin
      have h2 : (spec_peak N real imag scale_count >>>
          (spec_min_shift (spec_peak N real imag scale_count) - 1)) >>> (1:Nat) =
          (spec_peak N real imag scale_count >>>
            (spec_min_shift (spec_peak N real imag scale_count) - 1)) / 2 := by
        rw [Int.shiftRight_eq_div_pow]; norm_num
      rw [h2]
      omega
  · intro hpk
    have hshift : norm_shift_pass N real imag scale_count = 0 := by
      rw [norm_shift_pass_eq, if_neg (by omega)]
    refine ⟨hshift, ?_⟩
    simp only [normalize_magnitudes_uint16, hshift]
    refine List.map_congr_left ?_
    intro i hi
    simp only [rescaled_mag, clamp_u16, Int.shiftRight_eq_div_pow, pow_zero, Nat.cast_one,
      Int.ediv_one]

/-- Witness for C2 (amended), applying both branches at concrete inputs:
peak 131068 forces a shift of at least one, and peak 100 applies none. -/
theorem C2_normalization_amended_witness :
    1 ≤ norm_shift_pass 2 [32767, 0] [0, 0] 2 ∧
    norm_shift_pass 2 [100, 0] [0, 0] 0 = 0 :=
  ⟨((C2_normalization_amended 2 [32767, 0] [0, 0] 2).1 (by decide)).1,
   ((C2_normalization_amended 2 [100, 0] [0, 0] 0).2 (by decide)).1⟩

/-! ## FFT pipeline (src/fixedpoint_fft.h)

The template parameters of `FixedPointFFT` become ordinary parameters:
`N` (a power of two), the input width, the output width, and the window
type.  The precomputed twiddle and window tables become functions of the
index computing exactly the values the constructor stores. -/

inductive InputType where
  | i16
  | i32
deriving DecidableEq, Repr

inductive WindowType where
  | Bartlett
  | Hann
  | BlackmanHarris
deriving DecidableEq, Repr

/-- C truncation of a wider signed value into `int16_t`: two's-complement
wraparound modulo 2^16. -/
def toInt16 (x : Int) : Int := (x + 32768) % 65536 - 32768

/-- Embedding of `input_to_q15`: a 16-bit sample passes through; a wide
sample is arithmetically shifted right by 8 and truncated to `int16_t`. -/
def input_to_q15 (it : InputType) (value : Int) : Int :=
  match it with
  | .i16 => value
  | .i32 => toInt16 (value >>> (8 : Nat))

/-- The constructor's twiddle angle `(int32_t)(-2 * Q15_ONE * k) / N`,
with C truncating division. -/
def twiddle_angle (N k : Nat) : Int := (-2 * Q15_ONE * (k : Int)).tdiv (N : Int)

def twiddle_real (N k : Nat) : Int := cos_q15 (twiddle_angle N k)

def twiddle_imag (N k : Nat) : Int := sin_q15 (twiddle_angle N k)

/-- The Bartlett window value computed on the fly inside `apply_window`,
including its store into the `int16_t` local. -/
def bartlett_coeff (N i : Nat) : Int :=
  if i < N / 2 then toInt16 (((i : Int) * 2 * Q15_ONE).tdiv (N : Int))
  else toInt16 ((((N : Int) - (i : Int)) * 2 * Q15_ONE).tdiv (N : Int))

/-- The Hann window coefficient the constructor stores:
`16384 - (cos_val >> 1)` into an `int16_t` slot. -/
def hann_coeff (N n : Nat) : Int :=
  toInt16 (16384 - (cos_q15 (((2 : Int) * Q15_ONE * (n : Int)).tdiv (N : Int)) >>> (1 : Nat)))

/-- The Blackman-Harris window coefficient the constructor stores, with
its clamp to `[0, Q15_ONE]`. -/
def blackman_harris_coeff (N n : Nat) : Int :=
  let cos1 := cos_q15 (((2 : Int) * Q15_ONE * (n : Int)).tdiv (N : Int))
  let cos2 := cos_q15 (((4 : Int) * Q15_ONE * (n : Int)).tdiv (N : Int))
  let cos3 := cos_q15 (((6 : Int) * Q15_ONE * (n : Int)).tdiv (N : Int))
  let window_val := 11761 - mul_q15 16001 cos1 + mul_q15 4630 cos2 - mul_q15 383 cos3
  let window_val1 := if window_val > Q15_ONE then Q15_ONE else window_val
  let window_val2 := if window_val1 < 0 then 0 else window_val1
  window_val2

def window_coeff (w : WindowType) (N n : Nat) : Int :=
  match w with
  | .Bartlett => bartlett_coeff N n
  | .Hann => hann_coeff N n
  | .BlackmanHarris => blackman_harris_coeff N n

/-- Embedding of `apply_window`: multiply each sample by its window
coefficient with the saturating fractional multiply. -/
def apply_window (w : WindowType) (N : Nat) (data : List Int) : List Int :=
  List.mapIdx (fun i v => mul_q15 v (window_coeff w N i)) data

/-- Embedding of the `reverse_bits` loop: `result = (result << 1) | (x & 1)`
is `result * 2 + x % 2` since the or-ed bit lands in a zero position. -/
def reverse_bits_aux : Nat → Nat → Nat → Nat
  | 0, _, result => result
  | bits + 1, x, result => reverse_bits_aux bits (x / 2) (result * 2 + x % 2)

def reverse_bits (x bits : Nat) : Nat := reverse_bits_aux bits x 0

/-- Embedding of `log2_n`: count halvings until the size reaches one.  The
fuel `n` dominates the iteration count. -/
def log2_aux : Nat → Nat → Nat
  | 0, _ => 0
  | fuel + 1, n => if n > 1 then log2_aux fuel (n / 2) + 1 else 0

def log2_n (N : Nat) : Nat := log2_aux N N

/-- Embedding of the bit-reversal permutation loop: swap `i` with
`bit_reverse[i]` exactly when `i` is smaller. -/
def bit_reversal_pass (N bits : Nat) (real : List Int) : List Int :=
  (List.range N).foldl (fun data i =>
    let j := reverse_bits i bits
    if i < j then (data.set i (data.getD j 0)).set j (data.getD i 0) else data) real

/-- The working buffers of one `magnitudes` call. -/
structure FFTState where
  real : List Int
  imag : List Int
deriving DecidableEq, Repr

/-- Embedding of the per-stage overflow scan: does any working value leave
`[-16384, 16384]`?  The C loop breaks at the first hit, which computes the
same boolean. -/
def need_scale_check (N : Nat) (st : FFTState) : Bool :=
  (List.range N).any (fun i =>
    decide (st.real.getD i 0 > 16384) || decide (st.real.getD i 0 < -16384) ||
    decide (st.imag.getD i 0 > 16384) || decide (st.imag.getD i 0 < -16384))

/-- Arithmetic halving of every working value (`real[i] >>= 1`). -/
def halve_state (st : FFTState) : FFTState :=
  { real := st.real.map (fun v : Int => v >>> (1 : Nat))
    imag := st.imag.map (fun v : Int => v >>> (1 : Nat)) }

/-- The conditional block-floating-point rescale at the head of a stage,
paired with the running `scale_count`. -/
def stage_rescale (N : Nat) (st : FFTState × Nat) : FFTState × Nat :=
  if need_scale_check N st.1 then (halve_state st.1, st.2 + 1) else st

/-- Embedding of one butterfly: the complex multiply of the far element by
the twiddle factor at `idx = (j*N)/m`, then the saturating combine.  The
functional reads-then-writes order matches the source because `i1 ≠ i2`. -/
def butterfly_update (N m m2 : Nat) (st : FFTState) (k j : Nat) : FFTState :=
  let idx := (j * N) / m
  let wr := twiddle_real N idx
  let wi := twiddle_imag N idx
  let i1 := k + j
  let i2 := i1 + m2
  let tr := sub_sat (mul_q15 (st.real.getD i2 0) wr) (mul_q15 (st.imag.getD i2 0) wi)
  let ti := add_sat (mul_q15 (st.real.getD i2 0) wi) (mul_q15 (st.imag.getD i2 0) wr)
  { real := (st.real.set i2 (sub_sat (st.real.getD i1 0) tr)).set i1
      (add_sat (st.real.getD i1 0) tr)
    imag := (st.imag.set i2 (sub_sat (st.imag.getD i1 0) ti)).set i1
      (add_sat (st.imag.getD i1 0) ti) }

/-- The two nested butterfly loops of one stage: `k` steps through block
starts `t * m`, `j` through the half-stage. -/
def stage_butterflies (N m m2 : Nat) (st : FFTState) : FFTState :=
  (List.range (N / m)).foldl (fun st1 t =>
    (List.range m2).foldl (fun st2 j => butterfly_update N m m2 st2 (t * m) j) st1) st

/-- One full stage: conditional rescale, then all butterflies of width
`m = 2 ^ stage`. -/
def fft_stage (N stage : Nat) (st : FFTState × Nat) : FFTState × Nat :=
  (stage_butterflies N (2 ^ stage) (2 ^ stage / 2) (stage_rescale N st).1,
    (stage_rescale N st).2)

/-- The state and scale count after the first `s` stages (stages are
numbered 1..log2 N as in the source). -/
def fft_after_stages (N s : Nat) (st : FFTState) : FFTState × Nat :=
  (List.range s).foldl (fun acc t => fft_stage N (t + 1) acc) (st, 0)

/-- The whole butterfly computation of `magnitudes`. -/
def fft_loop (N bits : Nat) (st : FFTState) : FFTState × Nat := fft_after_stages N bits st

/-- The rescale decision taken at stage `s + 1`, read off the state the
stage starts from. -/
def stage_scale_flag (N s : Nat) (st : FFTState) : Bool :=
  need_scale_check N (fft_after_stages N s st).1

/-- The list of per-stage rescale decisions of one transform run. -/
def scale_flags (N bits : Nat) (st : FFTState) : List Bool :=
  (List.range bits).map (fun s => stage_scale_flag N s st)

/-- The working state entering the butterfly loop: input conversion,
window, bit-reversal permutation of the real part, zero imaginary part. -/
def fft_input_state (N : Nat) (it : InputType) (w : WindowType) (input : List Int) :
    FFTState :=
  { real := bit_reversal_pass N (log2_n N) (apply_window w N (input.map (input_to_q15 it)))
    imag := List.replicate N 0 }

/-- Embedding of `magnitudes`: run the pipeline, then the output path for
the chosen width. -/
def magnitudes (N : Nat) (it : InputType) (ot : OutputType) (w : WindowType)
    (input : List Int) : List Int :=
  let res := fft_loop N (log2_n N) (fft_input_state N it w input)
  match ot with
  | .u16 => normalize_magnitudes_uint16 N res.1.real res.1.imag res.2
  | .u32 => (List.range (N / 2 + 1)).map
      (fun i => compute_magnitude .u32 (res.1.real.getD i 0) (res.1.imag.getD i 0) res.2)

/-- The per-stage rescale decisions of a `magnitudes` call on `input`. -/
def run_scale_flags (N : Nat) (it : InputType) (w : WindowType) (input : List Int) :
    List Bool :=
  scale_flags N (log2_n N) (fft_input_state N it w input)

/-- The uint16 normalization shift of a `magnitudes` call on `input`. -/
def run_norm_shift (N : Nat) (it : InputType) (w : WindowType) (input : List Int) : Nat :=
  norm_shift_pass N (fft_loop N (log2_n N) (fft_input_state N it w input)).1.real
    (fft_loop N (log2_n N) (fft_input_state N it w input)).1.imag
    (fft_loop N (log2_n N) (fft_input_state N it w input)).2

/-! ## List access helper lemmas -/

theorem getD_set_zero (l : List Int) (i j : Nat) (v : Int) :
    (l.set i v).getD j 0 = if i = j ∧ j < l.length then v else l.getD j 0 := by
  rw [List.getD_eq_getElem?_getD, List.getD_eq_getElem?_getD, List.getElem?_set]
  rcases Decidable.em (i = j) with h1 | h1
  · subst h1
    by_cases h2 : i < l.length
    · simp [h2]
    · simp [h2, List.getElem?_eq_none (le_of_not_lt h2)]
  · simp [h1]

theorem getD_map_zero (f : Int → Int) (hf : f 0 = 0) (l : List Int) (i : Nat) :
    (l.map f).getD i 0 = f (l.getD i 0) := by
  have := List.getD_map l 0 (n := i) f
  rw [hf] at this
  exact this

theorem getD_mapIdx_zero (f : Nat → Int → Int) (l : List Int) (i : Nat) :
    (List.mapIdx f l).getD i 0 =
      if i < l.length then f i (l.getD i 0) else 0 := by
  rw [List.getD_eq_getElem?_getD, List.getD_eq_getElem?_getD, List.getElem?_mapIdx]
  split_ifs with h
  · rw [List.getElem?_eq_getElem h]
    rfl
  · rw [List.getElem?_eq_none (by omega)]
    rfl

theorem getD_replicate_zero (n j : Nat) : (List.replicate n (0:Int)).getD j 0 = 0 := by
  induction n generalizing j with
  | zero => rfl
  | succ n ih =>
    match j with
    | 0 => rfl
    | j + 1 => exact ih j

theorem foldl_preserves {α β : Type} (P : α → Prop) (g : α → β → α) (l : List β) (init : α)
    (hstep : ∀ st x, P st → P (g st x)) (hinit : P init) : P (l.foldl g init) := by
  induction l generalizing init with
  | nil => exact hinit
  | cons x xs ih => exact ih (g init x) (hstep init x hinit)

/-! ## Zero propagation through the pipeline -/

def AllZeroD (l : List Int) : Prop := ∀ i : Nat, l.getD i 0 = 0

theorem mul_q15_zero_left (b : Int) : mul_q15 0 b = 0 := by
  simp [mul_q15, Int.shiftRight_eq_div_pow, Q15_ONE]

theorem add_sat_zero : add_sat 0 0 = 0 := by decide

theorem sub_sat_zero : sub_sat 0 0 = 0 := by decide

theorem AllZeroD_replicate (n : Nat) : AllZeroD (List.replicate n 0) :=
  fun i => getD_replicate_zero n i

theorem AllZeroD_set (l : List Int) (i : Nat) (v : Int) (hl : AllZeroD l) (hv : v = 0) :
    AllZeroD (l.set i v) := by
  intro j
  rw [getD_set_zero]
  split_ifs with h
  · exact hv
  · exact hl j

theorem AllZeroD_input (it : InputType) (n : Nat) :
    AllZeroD ((List.replicate n 0).map (input_to_q15 it)) := by
  intro i
  rw [getD_map_zero]
  · rw [getD_replicate_zero]
    cases it <;> decide
  · cases it <;> decide

theorem AllZeroD_apply_window (w : WindowType) (N : Nat) (l : List Int) (hl : AllZeroD l) :
    AllZeroD (apply_window w N l) := by
  intro i
  unfold apply_window
  rw [getD_mapIdx_zero]
  split_ifs with h
  · rw [hl i]
    exact mul_q15_zero_left _
  · rfl

theorem AllZeroD_bit_reversal (N bits : Nat) (l : List Int) (hl : AllZeroD l) :
    AllZeroD (bit_reversal_pass N bits l) := by
  unfold bit_reversal_pass
  refine foldl_preserves AllZeroD _ _ l ?_ hl
  intro st i hst
  dsimp only
  split_ifs with h
  · exact AllZeroD_set _ _ _ (AllZeroD_set _ _ _ hst (hst _)) (hst _)
  · exact hst

def AllZeroSt (st : FFTState) : Prop := AllZeroD st.real ∧ AllZeroD st.imag

theorem AllZeroSt_butterfly (N m m2 : Nat) (st : FFTState) (k j : Nat)
    (hst : AllZeroSt st) : AllZeroSt (butterfly_update N m m2 st k j) := by
  obtain ⟨hre, him⟩ := hst
  have hre' : ∀ i : Nat, st.real.getD i 0 = 0 := hre
  have him' : ∀ i : Nat, st.imag.getD i 0 = 0 := him
  unfold butterfly_update
  constructor
  · refine AllZeroD_set _ _ _ (AllZeroD_set _ _ _ hre ?_) ?_ <;>
      simp only [hre', him', mul_q15_zero_left, sub_sat_zero, add_sat_zero]
  · refine AllZeroD_set _ _ _ (AllZeroD_set _ _ _ him ?_) ?_ <;>
      simp only [hre', him', mul_q15_zero_left, sub_sat_zero, add_sat_zero]

theorem AllZeroSt_stage_butterflies (N m m2 : Nat) (st : FFTState) (hst : AllZeroSt st) :
    AllZeroSt (stage_butterflies N m m2 st) := by
  unfold stage_butterflies
  refine foldl_preserves AllZeroSt _ _ st ?_ hst
  intro st1 t h1
  refine foldl_preserves AllZeroSt _ _ st1 ?_ h1
  intro st2 j h2
  exact AllZeroSt_butterfly N m m2 st2 _ j h2

theorem AllZeroSt_halve (st : FFTState) (hst : AllZeroSt st) : AllZeroSt (halve_state st) := by
  obtain ⟨hre, him⟩ := hst
  have hz : ((0:Int) >>> (1:Nat)) = 0 := by decide
  constructor <;> intro i
  · unfold halve_state
    rw [getD_map_zero _ hz, hre i, hz]
  · unfold halve_state
    rw [getD_map_zero _ hz, him i, hz]

theorem AllZeroSt_fft_loop (N bits : Nat) (st : FFTState) (hst : AllZeroSt st) :
    AllZeroSt (fft_loop N bits st).1 := by
  unfold fft_loop fft_after_stages
  have h : ∀ p : FFTState × Nat, AllZeroSt p.1 →
      ∀ t, AllZeroSt (fft_stage N (t + 1) p).1 := by
    intro p hp t
    unfold fft_stage stage_rescale
    split_ifs with h
    · exact AllZeroSt_stage_butterflies _ _ _ _ (AllZeroSt_halve _ hp)
    · exact AllZeroSt_stage_butterflies _ _ _ _ hp
  exact foldl_preserves (fun p : FFTState × Nat => AllZeroSt p.1) _ _ (st, 0)
    (fun p t hp => h p hp t) hst

theorem mag_approx_zero : mag_approx 0 0 = 0 := by decide

theorem compute_magnitude_zero (ot : OutputType) (sc : Nat) :
    compute_magnitude ot 0 0 sc = 0 := by
  cases ot <;> simp [compute_magnitude, mag_approx_zero]

theorem normalize_all_zero (N : Nat) (re im : List Int) (sc : Nat)
    (hre : AllZeroD re) (him : AllZeroD im) :
    normalize_magnitudes_uint16 N re im sc = List.replicate (N / 2 + 1) 0 := by
  have hre' : ∀ i : Nat, re.getD i 0 = 0 := hre
  have him' : ∀ i : Nat, im.getD i 0 = 0 := him
  simp only [normalize_magnitudes_uint16]
  refine List.eq_replicate_iff.mpr ⟨by simp, ?_⟩
  intro b hb
  rcases List.mem_map.mp hb with ⟨i, hi, rfl⟩
  simp only [hre', him', mag_approx_zero, zero_mul, Int.shiftRight_eq_div_pow, Int.zero_ediv]
  norm_num

/-- C5: for every power-of-two size, every window type, both input widths
and both output widths, `magnitudes` maps the all-zero sample block to the
all-zero spectrum of N/2+1 bins. -/
theorem C5_zero_input (bits : Nat) (it : InputType) (ot : OutputType) (w : WindowType) :
    magnitudes (2 ^ bits) it ot w (List.replicate (2 ^ bits) 0) =
      List.replicate (2 ^ bits / 2 + 1) 0 := by
  have hst : AllZeroSt (fft_input_state (2 ^ bits) it w (List.replicate (2 ^ bits) 0)) :=
    ⟨AllZeroD_bit_reversal _ _ _ (AllZeroD_apply_window _ _ _ (AllZeroD_input it _)),
     AllZeroD_replicate _⟩
  have hres := AllZeroSt_fft_loop (2 ^ bits) (log2_n (2 ^ bits)) _ hst
  obtain ⟨hre, him⟩ := hres
  cases ot
  · simpa only [magnitudes] using
      normalize_all_zero (2 ^ bits) _ _ _ hre him
  · have hre' : ∀ i : Nat,
        (fft_loop (2 ^ bits) (log2_n (2 ^ bits))
          (fft_input_state (2 ^ bits) it w (List.replicate (2 ^ bits) 0))).1.real.getD i 0
          = 0 := hre
    have him' : ∀ i : Nat,
        (fft_loop (2 ^ bits) (log2_n (2 ^ bits))
          (fft_input_state (2 ^ bits) it w (List.replicate (2 ^ bits) 0))).1.imag.getD i 0
          = 0 := him
    simp only [magnitudes]
    refine List.eq_replicate_iff.mpr ⟨by simp, ?_⟩
    intro b hb
    rcases List.mem_map.mp hb with ⟨i, hi, rfl⟩
    rw [hre', him', compute_magnitude_zero]

/-! ## Range invariants of the working state -/

theorem getD_out_of_range (l : List Int) (i : Nat) (h : l.length ≤ i) : l.getD i 0 = 0 := by
  rw [List.getD_eq_getElem?_getD, List.getElem?_eq_none h]
  rfl

theorem add_sat_range (a b : Int) : -32768 ≤ add_sat a b ∧ add_sat a b ≤ 32767 := by
  simp only [add_sat, Q15_ONE]
  split_ifs <;> omega

theorem sub_sat_range (a b : Int) : -32768 ≤ sub_sat a b ∧ sub_sat a b ≤ 32767 := by
  simp only [sub_sat, Q15_ONE]
  split_ifs <;> omega

theorem mul_q15_range (a b : Int) : -32768 ≤ mul_q15 a b ∧ mul_q15 a b ≤ 32767 := by
  simp only [mul_q15, Q15_ONE]
  split_ifs <;> omega

def InRange16 (l : List Int) : Prop := ∀ i : Nat, -32768 ≤ l.getD i 0 ∧ l.getD i 0 ≤ 32767

def InRange16St (st : FFTState) : Prop := InRange16 st.real ∧ InRange16 st.imag

theorem InRange16_set (l : List Int) (i : Nat) (v : Int) (hl : InRange16 l)
    (hv : -32768 ≤ v ∧ v ≤ 32767) : InRange16 (l.set i v) := by
  intro j
  rw [getD_set_zero]
  split_ifs with h
  · exact hv
  · exact hl j

theorem InRange16_apply_window (w : WindowType) (N : Nat) (l : List Int) :
    InRange16 (apply_window w N l) := by
  intro i
  unfold apply_window
  rw [getD_mapIdx_zero]
  split_ifs with h
  · exact mul_q15_range _ _
  · omega

theorem InRange16_replicate_zero (n : Nat) : InRange16 (List.replicate n 0) := by
  intro i
  rw [getD_replicate_zero]
  omega

theorem InRange16_bit_reversal (N bits : Nat) (l : List Int) (hl : InRange16 l) :
    InRange16 (bit_reversal_pass N bits l) := by
  unfold bit_reversal_pass
  refine foldl_preserves InRange16 _ _ l ?_ hl
  intro st i hst
  dsimp only
  split_ifs with h
  · exact InRange16_set _ _ _ (InRange16_set _ _ _ hst (hst _)) (hst _)
  · exact hst

theorem InRange16St_butterfly (N m m2 : Nat) (st : FFTState) (k j : Nat)
    (hst : InRange16St st) : InRange16St (butterfly_update N m m2 st k j) := by
  obtain ⟨hre, him⟩ := hst
  unfold butterfly_update
  exact ⟨InRange16_set _ _ _ (InRange16_set _ _ _ hre (sub_sat_range _ _)) (add_sat_range _ _),
    InRange16_set _ _ _ (InRange16_set _ _ _ him (sub_sat_range _ _)) (add_sat_range _ _)⟩

theorem InRange16St_stage_butterflies (N m m2 : Nat) (st : FFTState)
    (hst : InRange16St st) : InRange16St (stage_butterflies N m m2 st) := by
  unfold stage_butterflies
  refine foldl_preserves InRange16St _ _ st ?_ hst
  intro st1 t h1
  refine foldl_preserves InRange16St _ _ st1 ?_ h1
  intro st2 j h2
  exact InRange16St_butterfly N m m2 st2 _ j h2

theorem halve_getD (l : List Int) (i : Nat) :
    (l.map (fun v : Int => v >>> (1 : Nat))).getD i 0 = l.getD i 0 >>> (1 : Nat) :=
  getD_map_zero _ (by decide) l i

theorem shiftRight_one_bounds (x : Int) (h : -32768 ≤ x ∧ x ≤ 32767) :
    -16384 ≤ x >>> (1 : Nat) ∧ x >>> (1 : Nat) ≤ 16383 := by
  have he : x >>> (1 : Nat) = x / 2 := by
    rw [Int.shiftRight_eq_div_pow]; norm_num
  rw [he]
  omega

theorem InRange16St_halve (st : FFTState) (hst : InRange16St st) :
    InRange16St (halve_state st) := by
  obtain ⟨hre, him⟩ := hst
  constructor <;> intro i
  · rw [halve_state, halve_getD]
    have := shiftRight_one_bounds _ (hre i)
    omega
  · rw [halve_state, halve_getD]
    have := shiftRight_one_bounds _ (him i)
    omega

theorem InRange16St_stage_rescale (N : Nat) (p : FFTState × Nat) (hst : InRange16St p.1) :
    InRange16St (stage_rescale N p).1 := by
  unfold stage_rescale
  split_ifs with h
  · exact InRange16St_halve _ hst
  · exact hst

theorem fft_after_stages_succ (N s : Nat) (st : FFTState) :
    fft_after_stages N (s + 1) st = fft_stage N (s + 1) (fft_after_stages N s st) := by
  unfold fft_after_stages
  rw [List.range_succ, List.foldl_append]
  rfl

theorem InRange16St_after_stages (N s : Nat) (st : FFTState) (hst : InRange16St st) :
    InRange16St (fft_after_stages N s st).1 := by
  induction s with
  | zero => exact hst
  | succ s ih =>
    rw [fft_after_stages_succ]
    unfold fft_stage
    exact InRange16St_stage_butterflies _ _ _ _
      (InRange16St_stage_rescale _ _ ih)

theorem InRange16St_input_state (N : Nat) (it : InputType) (w : WindowType)
    (input : List Int) : InRange16St (fft_input_state N it w input) :=
  ⟨InRange16_bit_reversal _ _ _ (InRange16_apply_window w N _),
   InRange16_replicate_zero N⟩

/-! ## Length preservation and the post-rescale bound -/

def LenSt (N : Nat) (st : FFTState) : Prop := st.real.length = N ∧ st.imag.length = N

theorem length_bit_reversal (N bits : Nat) (l : List Int) :
    (bit_reversal_pass N bits l).length = l.length := by
  unfold bit_reversal_pass
  refine foldl_preserves (fun d : List Int => d.length = l.length) _ _ l ?_ rfl
  intro st i hst
  dsimp only
  split_ifs with h
  · simp [hst]
  · exact hst

theorem LenSt_butterfly (N m m2 : Nat) (st : FFTState) (k j : Nat) (K : Nat)
    (hst : LenSt K st) : LenSt K (butterfly_update N m m2 st k j) := by
  obtain ⟨h1, h2⟩ := hst
  unfold butterfly_update
  constructor <;> simp [h1, h2]

theorem LenSt_after_stages (N s K : Nat) (st : FFTState) (hst : LenSt K st) :
    LenSt K (fft_after_stages N s st).1 := by
  induction s with
  | zero => exact hst
  | succ s ih =>
    rw [fft_after_stages_succ]
    unfold fft_stage
    have hresc : LenSt K (stage_rescale N (fft_after_stages N s st)).1 := by
      unfold stage_rescale
      split_ifs with h
      · obtain ⟨h1, h2⟩ := ih
        exact ⟨by simp [halve_state, h1], by simp [halve_state, h2]⟩
      · exact ih
    unfold stage_butterflies
    refine foldl_preserves (LenSt K) _ _ _ ?_ hresc
    intro st1 t h1
    refine foldl_preserves (LenSt K) _ _ st1 ?_ h1
    intro st2 j h2
    exact LenSt_butterfly _ _ _ _ _ _ _ h2

theorem LenSt_input_state (N : Nat) (it : InputType) (w : WindowType) (input : List Int)
    (hlen : input.length = N) : LenSt N (fft_input_state N it w input) := by
  constructor
  · unfold fft_input_state
    rw [length_bit_reversal]
    unfold apply_window
    rw [List.length_mapIdx, List.length_map, hlen]
  · simp [fft_input_state]

/-- After the conditional rescale at the head of a stage, every working
value lies in `[-16384, 16384]`: if the scan forced a halving, halved
int16 values land in `[-16384, 16383]`; otherwise the scan itself says no
value leaves `[-16384, 16384]`. -/
theorem stage_rescale_bound (N : Nat) (p : FFTState × Nat) (hrange : InRange16St p.1)
    (hlen : LenSt N p.1) (i : Nat) :
    (-16384 ≤ (stage_rescale N p).1.real.getD i 0 ∧
      (stage_rescale N p).1.real.getD i 0 ≤ 16384) ∧
    (-16384 ≤ (stage_rescale N p).1.imag.getD i 0 ∧
      (stage_rescale N p).1.imag.getD i 0 ≤ 16384) := by
  obtain ⟨hre, him⟩ := hrange
  obtain ⟨hlr, hli⟩ := hlen
  unfold stage_rescale
  split_ifs with h
  · have h1 := shiftRight_one_bounds _ (hre i)
    have h2 := shiftRight_one_bounds _ (him i)
    rw [halve_state]
    dsimp only
    rw [halve_getD, halve_getD]
    omega
  · rcases lt_or_ge i N with hi | hi
    · rw [Bool.not_eq_true] at h
      have hall := List.any_eq_false.mp h
      have hx := hall i (List.mem_range.mpr hi)
      simp only [Bool.or_eq_true, decide_eq_true_eq, not_or] at hx
      omega
    · rw [getD_out_of_range p.1.real i (by omega), getD_out_of_range p.1.imag i (by omega)]
      omega

/-! ## Scale count bounds -/

theorem stage_rescale_count (N : Nat) (p : FFTState × Nat) :
    (stage_rescale N p).2 ≤ p.2 + 1 := by
  unfold stage_rescale
  split_ifs <;> omega

theorem fft_stage_count (N s : Nat) (p : FFTState × Nat) :
    (fft_stage N s p).2 ≤ p.2 + 1 := by
  unfold fft_stage
  exact stage_rescale_count N p

theorem scale_count_le_stages (N s : Nat) (st : FFTState) :
    (fft_after_stages N s st).2 ≤ s := by
  induction s with
  | zero => exact le_refl 0
  | succ s ih =>
    rw [fft_after_stages_succ]
    have := fft_stage_count N (s + 1) (fft_after_stages N s st)
    omega

/-! ## log2_n on powers of two -/

theorem log2_aux_pow (b : Nat) : ∀ fuel : Nat, b ≤ fuel → log2_aux fuel (2 ^ b) = b := by
  induction b with
  | zero => intro fuel _; cases fuel <;> simp [log2_aux]
  | succ b ih =>
    intro fuel hb
    match fuel, hb with
    | fuel + 1, _ =>
      rw [log2_aux, if_pos (by exact Nat.one_lt_two_pow (by omega))]
      have h2 : 2 ^ (b + 1) / 2 = 2 ^ b := by rw [pow_succ]; omega
      rw [h2, ih fuel (by omega)]

theorem log2_n_pow (b : Nat) : log2_n (2 ^ b) = b :=
  log2_aux_pow b (2 ^ b) (Nat.le_of_lt (Nat.lt_two_pow b))

/-! ## Magnitude bound -/

theorem mag_approx_bound (re im : Int) (hre : -32768 ≤ re ∧ re ≤ 32767)
    (him : -32768 ≤ im ∧ im ≤ 32767) :
    0 ≤ mag_approx re im ∧ mag_approx re im ≤ 49152 := by
  simp only [mag_approx, Int.shiftRight_eq_div_pow, pow_one, Nat.cast_ofNat]
  split_ifs <;> omega

/-! ## Claim C9: the per-stage rescale invariant -/

/-- C9: at the start of every butterfly stage, immediately after the
conditional rescale, every working real and imaginary value lies in
`[-16384, 16384]`; the scale count grows by at most one per stage and
never exceeds log2(N) over the whole transform, and the rescaled per-bin
magnitude `mag << scale_count` stays nonnegative and strictly below
`2 ^ 63`, so the 64-bit accumulator of `compute_magnitude` cannot
overflow. -/
theorem C9_stage_invariant (bits : Nat) (hbits : bits ≤ 15) (it : InputType)
    (w : WindowType) (input : List Int) (hlen : input.length = 2 ^ bits)
    (s : Nat) (hs : s < bits) :
    (∀ i : Nat,
      (-16384 ≤ (stage_rescale (2 ^ bits) (fft_after_stages (2 ^ bits) s
          (fft_input_state (2 ^ bits) it w input))).1.real.getD i 0 ∧
        (stage_rescale (2 ^ bits) (fft_after_stages (2 ^ bits) s
          (fft_input_state (2 ^ bits) it w input))).1.real.getD i 0 ≤ 16384) ∧
      (-16384 ≤ (stage_rescale (2 ^ bits) (fft_after_stages (2 ^ bits) s
          (fft_input_state (2 ^ bits) it w input))).1.imag.getD i 0 ∧
        (stage_rescale (2 ^ bits) (fft_after_stages (2 ^ bits) s
          (fft_input_state (2 ^ bits) it w input))).1.imag.getD i 0 ≤ 16384)) ∧
    (fft_after_stages (2 ^ bits) (s + 1) (fft_input_state (2 ^ bits) it w input)).2 ≤
      (fft_after_stages (2 ^ bits) s (fft_input_state (2 ^ bits) it w input)).2 + 1 ∧
    (fft_loop (2 ^ bits) bits (fft_input_state (2 ^ bits) it w input)).2 ≤ bits ∧
    (∀ i : Nat,
      0 ≤ mag_approx
          ((fft_loop (2 ^ bits) bits (fft_input_state (2 ^ bits) it w input)).1.real.getD i 0)
          ((fft_loop (2 ^ bits) bits (fft_input_state (2 ^ bits) it w input)).1.imag.getD i 0) *
          2 ^ (fft_loop (2 ^ bits) bits (fft_input_state (2 ^ bits) it w input)).2 ∧
      mag_approx
          ((fft_loop (2 ^ bits) bits (fft_input_state (2 ^ bits) it w input)).1.real.getD i 0)
          ((fft_loop (2 ^ bits) bits (fft_input_state (2 ^ bits) it w input)).1.imag.getD i 0) *
          2 ^ (fft_loop (2 ^ bits) bits (fft_input_state (2 ^ bits) it w input)).2 <
        9223372036854775808) := by
  have hrange := InRange16St_after_stages (2 ^ bits) s _
    (InRange16St_input_state (2 ^ bits) it w input)
  have hlenst := LenSt_after_stages (2 ^ bits) s (2 ^ bits) _
    (LenSt_input_state (2 ^ bits) it w input hlen)
  refine ⟨fun i => stage_rescale_bound (2 ^ bits) _ hrange hlenst i, ?_, ?_, ?_⟩
  · rw [fft_after_stages_succ]
    exact fft_stage_count _ _ _
  · exact scale_count_le_stages _ _ _
  · intro i
    simp only [fft_loop]
    have hfin := InRange16St_after_stages (2 ^ bits) bits _
      (InRange16St_input_state (2 ^ bits) it w input)
    have hsc := scale_count_le_stages (2 ^ bits) bits
      (fft_input_state (2 ^ bits) it w input)
    have hmag := mag_approx_bound _ _ (hfin.1 i) (hfin.2 i)
    have hple : ((2:Int) ^ (fft_after_stages (2 ^ bits) bits
        (fft_input_state (2 ^ bits) it w input)).2) ≤ 2 ^ 15 :=
      pow_le_pow_right₀ (by omega) (by exact le_trans hsc hbits)
    have hppos : (0:Int) < 2 ^ (fft_after_stages (2 ^ bits) bits
        (fft_input_state (2 ^ bits) it w input)).2 := by positivity
    constructor
    · exact mul_nonneg hmag.1 (le_of_lt hppos)
    · nlinarith [hmag.1, hmag.2, hple, hppos]

/-- Witness for C9 at a concrete configuration: four samples of amplitude
1000, Bartlett window, narrow input, checking stage 1 of 2. -/
theorem C9_stage_invariant_witness :
    (∀ i : Nat,
      (-16384 ≤ (stage_rescale (2 ^ 2) (fft_after_stages (2 ^ 2) 0
          (fft_input_state (2 ^ 2) InputType.i16 WindowType.Bartlett
            (List.replicate 4 1000)))).1.real.getD i 0 ∧
        (stage_rescale (2 ^ 2) (fft_after_stages (2 ^ 2) 0
          (fft_input_state (2 ^ 2) InputType.i16 WindowType.Bartlett
            (List.replicate 4 1000)))).1.real.getD i 0 ≤ 16384) ∧
      (-16384 ≤ (stage_rescale (2 ^ 2) (fft_after_stages (2 ^ 2) 0
          (fft_input_state (2 ^ 2) InputType.i16 WindowType.Bartlett
            (List.replicate 4 1000)))).1.imag.getD i 0 ∧
        (stage_rescale (2 ^ 2) (fft_after_stages (2 ^ 2) 0
          (fft_input_state (2 ^ 2) InputType.i16 WindowType.Bartlett
            (List.replicate 4 1000)))).1.imag.getD i 0 ≤ 16384)) ∧
    (fft_after_stages (2 ^ 2) (0 + 1) (fft_input_state (2 ^ 2) InputType.i16
        WindowType.Bartlett (List.replicate 4 1000))).2 ≤
      (fft_after_stages (2 ^ 2) 0 (fft_input_state (2 ^ 2) InputType.i16
        WindowType.Bartlett (List.replicate 4 1000))).2 + 1 ∧
    (fft_loop (2 ^ 2) 2 (fft_input_state (2 ^ 2) InputType.i16 WindowType.Bartlett
        (List.replicate 4 1000))).2 ≤ 2 ∧
    (∀ i : Nat,
      0 ≤ mag_approx
          ((fft_loop (2 ^ 2) 2 (fft_input_state (2 ^ 2) InputType.i16 WindowType.Bartlett
            (List.replicate 4 1000))).1.real.getD i 0)
          ((fft_loop (2 ^ 2) 2 (fft_input_state (2 ^ 2) InputType.i16 WindowType.Bartlett
            (List.replicate 4 1000))).1.imag.getD i 0) *
          2 ^ (fft_loop (2 ^ 2) 2 (fft_input_state (2 ^ 2) InputType.i16 WindowType.Bartlett
            (List.replicate 4 1000))).2 ∧
      mag_approx
          ((fft_loop (2 ^ 2) 2 (fft_input_state (2 ^ 2) InputType.i16 WindowType.Bartlett
            (List.replicate 4 1000))).1.real.getD i 0)
          ((fft_loop (2 ^ 2) 2 (fft_input_state (2 ^ 2) InputType.i16 WindowType.Bartlett
            (List.replicate 4 1000))).1.imag.getD i 0) *
          2 ^ (fft_loop (2 ^ 2) 2 (fft_input_state (2 ^ 2) InputType.i16 WindowType.Bartlett
            (List.replicate 4 1000))).2 <
        9223372036854775808) :=
  C9_stage_invariant 2 (by decide) InputType.i16 WindowType.Bartlett
    (List.replicate 4 1000) (by decide) 0 (by decide)

/-! ## Bounds on the fixed-point sine -/

theorem normPiAux_le (fuel : Nat) : ∀ a : Int, a ≤ 32767 + 65534 * (fuel : Int) →
    normPiAux fuel a ≤ 32767 := by
  induction fuel with
  | zero => intro a h; rw [normPiAux]; omega
  | succ fuel ih =>
    intro a h
    rw [normPiAux]
    simp only [Q15_ONE]
    split_ifs with hgt
    · refine ih _ ?_
      push_cast at h ⊢
      omega
    · omega

theorem normPi_le (a : Int) : normPi a ≤ 32767 := by
  refine normPiAux_le a.toNat a ?_
  omega

theorem normNegPiAux_ge (fuel : Nat) : ∀ a : Int, -32767 - 65534 * (fuel : Int) ≤ a →
    -32767 ≤ normNegPiAux fuel a := by
  induction fuel with
  | zero => intro a h; rw [normNegPiAux]; omega
  | succ fuel ih =>
    intro a h
    rw [normNegPiAux]
    simp only [Q15_ONE]
    split_ifs with hlt
    · refine ih _ ?_
      push_cast at h ⊢
      omega
    · omega

theorem normNegPiAux_le (fuel : Nat) : ∀ a : Int, a ≤ 32767 →
    normNegPiAux fuel a ≤ 32767 := by
  induction fuel with
  | zero => intro a h; rw [normNegPiAux]; omega
  | succ fuel ih =>
    intro a h
    rw [normNegPiAux]
    simp only [Q15_ONE]
    split_ifs with hlt
    · exact ih _ (by omega)
    · omega

theorem normNegPi_bounds (a : Int) (h : a ≤ 32767) :
    -32767 ≤ normNegPi a ∧ normNegPi a ≤ 32767 := by
  constructor
  · refine normNegPiAux_ge (-a).toNat a ?_
    omega
  · exact normNegPiAux_le _ a h

theorem sin_fold_range (a1 : Int) (h : -32767 ≤ a1 ∧ a1 ≤ 32767) :
    0 ≤ sin_fold a1 ∧ sin_fold a1 ≤ 16383 := by
  have h16 : ((32767 : Int) >>> (1 : Nat)) = 16383 := by decide
  simp only [sin_fold, Q15_ONE, h16]
  split_ifs <;> omega

theorem sin_taylor_bound (x : Int) (h : 0 ≤ x ∧ x ≤ 16383) :
    -683 ≤ sin_taylor x ∧ sin_taylor x ≤ 16392 := by
  simp only [sin_taylor]
  have hx2u : (x * x) >>> (15 : Nat) ≤ (16383 * 16383 : Int) >>> (15 : Nat) :=
    shiftRight_mono _ _ _ (mul_le_mul h.2 h.2 h.1 (by omega))
  have hx2l : 0 ≤ (x * x) >>> (15 : Nat) :=
    shiftRight_nonneg_of_nonneg _ _ (mul_nonneg h.1 h.1)
  have hx2c : ((16383 * 16383 : Int)) >>> (15 : Nat) = 8191 := by decide
  have hx3u : ((x * x) >>> (15 : Nat) * x) >>> (15 : Nat) ≤
      (8191 * 16383 : Int) >>> (15 : Nat) :=
    shiftRight_mono _ _ _ (mul_le_mul (by omega) h.2 h.1 (by omega))
  have hx3l : 0 ≤ ((x * x) >>> (15 : Nat) * x) >>> (15 : Nat) :=
    shiftRight_nonneg_of_nonneg _ _ (mul_nonneg hx2l h.1)
  have hx3c : ((8191 * 16383 : Int)) >>> (15 : Nat) = 4095 := by decide
  have hx5u : (((x * x) >>> (15 : Nat) * x) >>> (15 : Nat) * ((x * x) >>> (15 : Nat)))
      >>> (15 : Nat) ≤ (4095 * 8191 : Int) >>> (15 : Nat) :=
    shiftRight_mono _ _ _ (mul_le_mul (by omega) (by omega) hx2l (by omega))
  have hx5l : 0 ≤ (((x * x) >>> (15 : Nat) * x) >>> (15 : Nat) * ((x * x) >>> (15 : Nat)))
      >>> (15 : Nat) :=
    shiftRight_nonneg_of_nonneg _ _ (mul_nonneg hx3l hx2l)
  have hx5c : ((4095 * 8191 : Int)) >>> (15 : Nat) = 1023 := by decide
  have ht3 : (((x * x) >>> (15 : Nat) * x) >>> (15 : Nat)).tdiv 6 =
      (((x * x) >>> (15 : Nat) * x) >>> (15 : Nat)) / 6 :=
    Int.tdiv_eq_ediv hx3l (by omega)
  have ht5 : ((((x * x) >>> (15 : Nat) * x) >>> (15 : Nat) * ((x * x) >>> (15 : Nat)))
      >>> (15 : Nat)).tdiv 120 =
      ((((x * x) >>> (15 : Nat) * x) >>> (15 : Nat) * ((x * x) >>> (15 : Nat)))
      >>> (15 : Nat)) / 120 :=
    Int.tdiv_eq_ediv hx5l (by omega)
  rw [ht3, ht5]
  omega

theorem sin_q15_bound (a : Int) : -16392 ≤ sin_q15 a ∧ sin_q15 a ≤ 16392 := by
  have h1 : normPi a ≤ 32767 := normPi_le a
  have h2 := normNegPi_bounds (normPi a) h1
  have h3 := sin_fold_range (normNegPi (normPi a)) h2
  have h4 := sin_taylor_bound _ h3
  simp only [sin_q15, sin_clamp, Q15_ONE]
  split_ifs <;> omega

theorem cos_q15_bound (a : Int) : -16392 ≤ cos_q15 a ∧ cos_q15 a ≤ 16392 :=
  sin_q15_bound _

/-! ## Window coefficient bounds -/

theorem toInt16_id (x : Int) (h : -32768 ≤ x ∧ x ≤ 32767) : toInt16 x = x := by
  unfold toInt16
  omega

theorem hann_coeff_bounds (N n : Nat) : 0 ≤ hann_coeff N n ∧ hann_coeff N n ≤ 32767 := by
  unfold hann_coeff
  have hc := cos_q15_bound (((2 : Int) * Q15_ONE * (n : Int)).tdiv (N : Int))
  have hdiv : cos_q15 (((2 : Int) * Q15_ONE * (n : Int)).tdiv (N : Int)) >>> (1 : Nat) =
      cos_q15 (((2 : Int) * Q15_ONE * (n : Int)).tdiv (N : Int)) / 2 := by
    rw [Int.shiftRight_eq_div_pow]; norm_num
  rw [hdiv, toInt16_id _ (by omega)]
  omega

theorem blackman_harris_coeff_bounds (N n : Nat) :
    0 ≤ blackman_harris_coeff N n ∧ blackman_harris_coeff N n ≤ 32767 := by
  simp only [blackman_harris_coeff, Q15_ONE]
  split_ifs <;> omega

theorem bartlett_coeff_bounds (N i : Nat) (hN : 2 ≤ N) (hNe : N % 2 = 0) (hi : i < N) :
    0 ≤ bartlett_coeff N i ∧ bartlett_coeff N i ≤ 32767 := by
  have hNpos : (0:Int) < (N:Int) := by
    have : 0 < N := by omega
    exact_mod_cast this
  unfold bartlett_coeff
  simp only [Q15_ONE]
  split_ifs with hbr
  · have h0 : (0:Int) ≤ (i:Int) * 2 * 32767 := by positivity
    have htd : ((i:Int) * 2 * 32767).tdiv (N : Int) = ((i:Int) * 2 * 32767) / (N : Int) :=
      Int.tdiv_eq_ediv h0 (by omega)
    have h2i : (i:Int) * 2 ≤ (N:Int) := by
      have : i * 2 ≤ N := by omega
      exact_mod_cast this
    have hub : (i:Int) * 2 * 32767 ≤ (N:Int) * 32767 := by nlinarith
    have hq : ((i:Int) * 2 * 32767) / (N : Int) ≤ 32767 := by
      calc ((i:Int) * 2 * 32767) / (N : Int) ≤ ((N:Int) * 32767) / (N : Int) :=
            Int.ediv_le_ediv hNpos hub
        _ = 32767 := Int.mul_ediv_cancel_left _ (by omega)
    have hlo : 0 ≤ ((i:Int) * 2 * 32767) / (N : Int) := Int.ediv_nonneg h0 (by omega)
    rw [htd, toInt16_id _ (by omega)]
    omega
  · have hge : N / 2 ≤ i := by omega
    have h0 : (0:Int) ≤ ((N:Int) - (i:Int)) * 2 * 32767 := by
      have : (i:Int) ≤ (N:Int) := by exact_mod_cast Nat.le_of_lt hi
      nlinarith
    have htd : (((N:Int) - (i:Int)) * 2 * 32767).tdiv (N : Int) =
        (((N:Int) - (i:Int)) * 2 * 32767) / (N : Int) := Int.tdiv_eq_ediv h0 (by omega)
    have h2i : ((N:Int) - (i:Int)) * 2 ≤ (N:Int) := by
      have h1 : (N - i) * 2 ≤ N := by omega
      have h2 : ((N - i : Nat) : Int) = (N:Int) - (i:Int) := by omega
      have h3 : (((N - i) * 2 : Nat) : Int) ≤ ((N : Nat) : Int) := by exact_mod_cast h1
      push_cast at h3
      omega
    have hub : ((N:Int) - (i:Int)) * 2 * 32767 ≤ (N:Int) * 32767 := by nlinarith
    have hq : (((N:Int) - (i:Int)) * 2 * 32767) / (N : Int) ≤ 32767 := by
      calc (((N:Int) - (i:Int)) * 2 * 32767) / (N : Int) ≤ ((N:Int) * 32767) / (N : Int) :=
            Int.ediv_le_ediv hNpos hub
        _ = 32767 := Int.mul_ediv_cancel_left _ (by omega)
    have hlo : 0 ≤ (((N:Int) - (i:Int)) * 2 * 32767) / (N : Int) :=
      Int.ediv_nonneg h0 (by omega)
    rw [htd, toInt16_id _ (by omega)]
    omega

theorem window_coeff_bounds (w : WindowType) (N n : Nat) (hN : 2 ≤ N) (hNe : N % 2 = 0)
    (hn : n < N) : 0 ≤ window_coeff w N n ∧ window_coeff w N n ≤ 32767 := by
  cases w
  · exact bartlett_coeff_bounds N n hN hNe hn
  · exact hann_coeff_bounds N n
  · exact blackman_harris_coeff_bounds N n

/-! ## Monotonicity of the saturating primitives -/

theorem mul_q15_mono_left (a a' c : Int) (hc : 0 ≤ c) (h : a ≤ a') :
    mul_q15 a c ≤ mul_q15 a' c := by
  have hs : (a * c) >>> (15 : Nat) ≤ (a' * c) >>> (15 : Nat) :=
    shiftRight_mono _ _ _ (mul_le_mul_of_nonneg_right h hc)
  simp only [mul_q15, Q15_ONE]
  split_ifs <;> omega

theorem mul_q15_anti_left (a a' c : Int) (hc : c ≤ 0) (h : a ≤ a') :
    mul_q15 a' c ≤ mul_q15 a c := by
  have hs : (a' * c) >>> (15 : Nat) ≤ (a * c) >>> (15 : Nat) :=
    shiftRight_mono _ _ _ (mul_le_mul_of_nonpos_right h hc)
  simp only [mul_q15, Q15_ONE]
  split_ifs <;> omega

theorem mul_q15_nonneg (a c : Int) (ha : 0 ≤ a) (hc : 0 ≤ c) : 0 ≤ mul_q15 a c := by
  have hs : 0 ≤ (a * c) >>> (15 : Nat) :=
    shiftRight_nonneg_of_nonneg _ _ (mul_nonneg ha hc)
  simp only [mul_q15, Q15_ONE]
  split_ifs <;> omega

theorem mul_q15_nonpos (a c : Int) (ha : 0 ≤ a) (hc : c ≤ 0) : mul_q15 a c ≤ 0 := by
  have hs : (a * c) >>> (15 : Nat) ≤ 0 := by
    have h0 : a * c ≤ 0 := mul_nonpos_of_nonneg_of_nonpos ha hc
    have := shiftRight_mono (a * c) 0 15 h0
    simpa [Int.shiftRight_eq_div_pow] using this
  simp only [mul_q15, Q15_ONE]
  split_ifs <;> omega

theorem mul_q15_zero_right (a : Int) : mul_q15 a 0 = 0 := by
  simp [mul_q15, Int.shiftRight_eq_div_pow, Q15_ONE]

theorem add_sat_mono (a a' b b' : Int) (h1 : a ≤ a') (h2 : b ≤ b') :
    add_sat a b ≤ add_sat a' b' := by
  simp only [add_sat, Q15_ONE]
  split_ifs <;> omega

theorem add_sat_nonneg (a b : Int) (ha : 0 ≤ a) (hb : 0 ≤ b) : 0 ≤ add_sat a b := by
  simp only [add_sat, Q15_ONE]
  split_ifs <;> omega

theorem sub_sat_zero_right (x : Int) (hx : -32768 ≤ x ∧ x ≤ 32767) : sub_sat x 0 = x := by
  simp only [sub_sat, Q15_ONE]
  split_ifs <;> omega

theorem add_sat_zero_both : add_sat 0 0 = 0 := by decide

/-! ## Parallel fold preservation -/

theorem foldl_preserves₂ {α β : Type} (P : α → α → Prop) (g : α → β → α) (l : List β)
    (ia ib : α) (hstep : ∀ sa sb x, x ∈ l → P sa sb → P (g sa x) (g sb x))
    (hinit : P ia ib) : P (l.foldl g ia) (l.foldl g ib) := by
  induction l generalizing ia ib with
  | nil => exact hinit
  | cons x xs ih =>
    exact ih (g ia x) (g ib x) (fun sa sb y hy => hstep sa sb y (by simp [hy]))
      (hstep ia ib x (by simp) hinit)

/-! ## Pointwise domination of the real buffers -/

def MonoD (la lb : List Int) : Prop :=
  ∀ p : Nat, 0 ≤ la.getD p 0 ∧ la.getD p 0 ≤ lb.getD p 0

theorem MonoD_windowed (w : WindowType) (N : Nat) (va vb : Int)
    (hco : ∀ n : Nat, n < N → 0 ≤ window_coeff w N n)
    (hv : 0 ≤ va ∧ va ≤ vb) :
    MonoD (apply_window w N (List.replicate N va)) (apply_window w N (List.replicate N vb)) := by
  intro p
  unfold apply_window
  rw [getD_mapIdx_zero, getD_mapIdx_zero]
  simp only [List.length_replicate]
  split_ifs with h
  · have hg : ∀ v : Int, (List.replicate N v).getD p 0 = v := by
      intro v
      rw [List.getD_eq_getElem?_getD, List.getElem?_replicate, if_pos h]
      rfl
    rw [hg, hg]
    exact ⟨mul_q15_nonneg _ _ hv.1 (hco p h),
      mul_q15_mono_left _ _ _ (hco p h) hv.2⟩
  · omega

theorem MonoD_bit_reversal (N bits : Nat) (la lb : List Int) (hlen : la.length = lb.length)
    (h : MonoD la lb) : MonoD (bit_reversal_pass N bits la) (bit_reversal_pass N bits lb) := by
  unfold bit_reversal_pass
  refine foldl_preserves₂ (fun x y => x.length = y.length ∧ MonoD x y) _ _ la lb
    ?_ ⟨hlen, h⟩ |>.2
  intro sa sb i _ hp
  obtain ⟨hplen, hp⟩ := hp
  dsimp only
  split_ifs with hij
  · constructor
    · simp [hplen]
    · intro p
      rw [getD_set_zero, getD_set_zero, getD_set_zero, getD_set_zero]
      simp only [List.length_set, hplen]
      split_ifs <;> exact hp _
  · exact ⟨hplen, hp⟩

/-! ## Frame lemmas: butterflies leave untouched positions unchanged -/

theorem butterfly_frame (N m m2 : Nat) (st : FFTState) (k j q : Nat)
    (h1 : q ≠ k + j) (h2 : q ≠ k + j + m2) :
    (butterfly_update N m m2 st k j).real.getD q 0 = st.real.getD q 0 ∧
    (butterfly_update N m m2 st k j).imag.getD q 0 = st.imag.getD q 0 := by
  unfold butterfly_update
  constructor <;>
  · rw [getD_set_zero, getD_set_zero,
      if_neg (fun hc => h1 hc.1.symm), if_neg (fun hc => h2 hc.1.symm)]

theorem inner_fold_frame (N m m2 k : Nat) (l : List Nat) (st : FFTState) (q : Nat)
    (hl : ∀ j ∈ l, q ≠ k + j ∧ q ≠ k + j + m2) :
    ((l.foldl (fun s j => butterfly_update N m m2 s k j) st).real.getD q 0 =
      st.real.getD q 0) ∧
    ((l.foldl (fun s j => butterfly_update N m m2 s k j) st).imag.getD q 0 =
      st.imag.getD q 0) := by
  induction l generalizing st with
  | nil => exact ⟨rfl, rfl⟩
  | cons x xs ih =>
    have hbf := butterfly_frame N m m2 st k x q (hl x (by simp)).1 (hl x (by simp)).2
    have hrest := ih (butterfly_update N m m2 st k x) (fun j hj => hl j (by simp [hj]))
    exact ⟨hrest.1.trans hbf.1, hrest.2.trans hbf.2⟩

theorem blocks_frame (N m m2 : Nat) (hm : m = 2 * m2) (ts : List Nat) (st : FFTState)
    (q : Nat) (hts : ∀ t ∈ ts, q < t * m ∨ t * m + m ≤ q) :
    ((ts.foldl (fun st1 t => (List.range m2).foldl
        (fun st2 j => butterfly_update N m m2 st2 (t * m) j) st1) st).real.getD q 0 =
      st.real.getD q 0) ∧
    ((ts.foldl (fun st1 t => (List.range m2).foldl
        (fun st2 j => butterfly_update N m m2 st2 (t * m) j) st1) st).imag.getD q 0 =
      st.imag.getD q 0) := by
  induction ts generalizing st with
  | nil => exact ⟨rfl, rfl⟩
  | cons t ts ih
  =>
    have hblock := inner_fold_frame N m m2 (t * m) (List.range m2) st q ?_
    · have hrest := ih ((List.range m2).foldl
        (fun st2 j => butterfly_update N m m2 st2 (t * m) j) st)
        (fun u hu => hts u (by simp [hu]))
      exact ⟨hrest.1.trans hblock.1, hrest.2.trans hblock.2⟩
    · intro j hj
      have hjm := List.mem_range.mp hj
      have := hts t (by simp)
      omega

theorem LenSt_blocks (N m m2 K : Nat) (ts : List Nat) (st : FFTState) (hst : LenSt K st) :
    LenSt K (ts.foldl (fun st1 t => (List.range m2).foldl
      (fun st2 j => butterfly_update N m m2 st2 (t * m) j) st1) st) := by
  refine foldl_preserves (LenSt K) _ _ st ?_ hst
  intro st1 t h1
  refine foldl_preserves (LenSt K) _ _ st1 ?_ h1
  intro st2 j h2
  exact LenSt_butterfly _ _ _ _ _ _ _ h2

/-! ## The value written at a block head (the DC path of the stage) -/

theorem butterfly_getD_i1 (N m m2 : Nat) (st : FFTState) (k j : Nat)
    (hk : k + j < st.real.length) (hki : k + j < st.imag.length) :
    (butterfly_update N m m2 st k j).real.getD (k + j) 0 =
      add_sat (st.real.getD (k + j) 0)
        (sub_sat (mul_q15 (st.real.getD (k + j + m2) 0) (twiddle_real N ((j * N) / m)))
          (mul_q15 (st.imag.getD (k + j + m2) 0) (twiddle_imag N ((j * N) / m)))) ∧
    (butterfly_update N m m2 st k j).imag.getD (k + j) 0 =
      add_sat (st.imag.getD (k + j) 0)
        (add_sat (mul_q15 (st.real.getD (k + j + m2) 0) (twiddle_imag N ((j * N) / m)))
          (mul_q15 (st.imag.getD (k + j + m2) 0) (twiddle_real N ((j * N) / m)))) := by
  unfold butterfly_update
  constructor
  · rw [getD_set_zero, if_pos ⟨rfl, by rw [List.length_set]; exact hk⟩]
  · rw [getD_set_zero, if_pos ⟨rfl, by rw [List.length_set]; exact hki⟩]

theorem block_getD_head (N m m2 t : Nat) (hm2 : 0 < m2) (st : FFTState)
    (hkr : t * m < st.real.length) (hki : t * m < st.imag.length) :
    (((List.range m2).foldl (fun st2 j => butterfly_update N m m2 st2 (t * m) j) st).real.getD
        (t * m) 0 =
      add_sat (st.real.getD (t * m) 0)
        (sub_sat (mul_q15 (st.real.getD (t * m + m2) 0) (twiddle_real N 0))
          (mul_q15 (st.imag.getD (t * m + m2) 0) (twiddle_imag N 0)))) ∧
    (((List.range m2).foldl (fun st2 j => butterfly_update N m m2 st2 (t * m) j) st).imag.getD
        (t * m) 0 =
      add_sat (st.imag.getD (t * m) 0)
        (add_sat (mul_q15 (st.real.getD (t * m + m2) 0) (twiddle_imag N 0))
          (mul_q15 (st.imag.getD (t * m + m2) 0) (twiddle_real N 0)))) := by
  obtain ⟨m2', rfl⟩ : ∃ m2', m2 = m2' + 1 := ⟨m2 - 1, by omega⟩
  rw [List.range_succ_eq_map]
  simp only [List.foldl_cons]
  have hframe := inner_fold_frame N m (m2' + 1) (t * m) ((List.range m2').map Nat.succ)
      (butterfly_update N m (m2' + 1) st (t * m) 0) (t * m) ?_
  · have hhead := butterfly_getD_i1 N m (m2' + 1) st (t * m) 0
      (by omega) (by omega)
    have hidx : (0 * N) / m = 0 := by simp
    rw [hidx] at hhead
    have h0 : t * m + 0 = t * m := by omega
    rw [h0] at hhead
    exact ⟨hframe.1.trans hhead.1, hframe.2.trans hhead.2⟩
  · intro j hj
    rcases List.mem_map.mp hj with ⟨j', hj', rfl⟩
    omega

theorem stage_butterflies_dc (N m m2 T : Nat) (hm : m = 2 * m2) (hm2 : 0 < m2)
    (hdvd : m ∣ N) (st : FFTState) (hlr : st.real.length = N) (hli : st.imag.length = N)
    (hTN : (T + 1) * m ≤ N) :
    (stage_butterflies N m m2 st).real.getD (T * m) 0 =
      add_sat (st.real.getD (T * m) 0)
        (sub_sat (mul_q15 (st.real.getD (T * m + m2) 0) (twiddle_real N 0))
          (mul_q15 (st.imag.getD (T * m + m2) 0) (twiddle_imag N 0))) ∧
    (stage_butterflies N m m2 st).imag.getD (T * m) 0 =
      add_sat (st.imag.getD (T * m) 0)
        (add_sat (mul_q15 (st.real.getD (T * m + m2) 0) (twiddle_imag N 0))
          (mul_q15 (st.imag.getD (T * m + m2) 0) (twiddle_real N 0))) := by
  have hsm : (T + 1) * m = T * m + m := by rw [Nat.succ_mul]
  have hmpos : 0 < m := by omega
  unfold stage_butterflies
  have hsplit : List.range (N / m) =
      (List.range T ++ [T]) ++ (List.range (N / m - T - 1)).map (fun u => (T + 1) + u) := by
    have hTlt : T < N / m := by
      rw [Nat.lt_div_iff_mul_lt hdvd]
      have hcomm : m * T = T * m := Nat.mul_comm m T
      omega
    calc List.range (N / m) = List.range ((T + 1) + (N / m - T - 1)) := by
          congr 1
          omega
      _ = List.range (T + 1) ++ (List.range (N / m - T - 1)).map (fun u => (T + 1) + u) :=
          List.range_add _ _
      _ = (List.range T ++ [T]) ++ (List.range (N / m - T - 1)).map (fun u => (T + 1) + u) := by
          rw [List.range_succ]
  rw [hsplit, List.foldl_append, List.foldl_append]
  have hfr1 := blocks_frame N m m2 hm (List.range T) st (T * m) (fun t ht => by
    have htT := List.mem_range.mp ht
    have hmul := Nat.mul_le_mul_right m (show t + 1 ≤ T from htT)
    rw [Nat.succ_mul] at hmul
    omega)
  have hfr2 := blocks_frame N m m2 hm (List.range T) st (T * m + m2) (fun t ht => by
    have htT := List.mem_range.mp ht
    have hmul := Nat.mul_le_mul_right m (show t + 1 ≤ T from htT)
    rw [Nat.succ_mul] at hmul
    omega)
  have hlen1 := LenSt_blocks N m m2 N (List.range T) st ⟨hlr, hli⟩
  simp only [List.foldl_cons, List.foldl_nil]
  have hmid := block_getD_head N m m2 T hm2
    ((List.range T).foldl (fun st1 t => (List.range m2).foldl
      (fun st2 j => butterfly_update N m m2 st2 (t * m) j) st1) st)
    (by rw [hlen1.1]; omega) (by rw [hlen1.2]; omega)
  have hfr3 := blocks_frame N m m2 hm ((List.range (N / m - T - 1)).map (fun u => (T + 1) + u))
    ((List.range m2).foldl (fun st2 j => butterfly_update N m m2 st2 (T * m) j)
      ((List.range T).foldl (fun st1 t => (List.range m2).foldl
        (fun st2 j => butterfly_update N m m2 st2 (t * m) j) st1) st))
    (T * m) (fun t ht => by
      rcases List.mem_map.mp ht with ⟨u, hu, rfl⟩
      have hmul := Nat.mul_le_mul_right m (show T + 1 ≤ (T + 1) + u by omega)
      rw [Nat.succ_mul] at hmul
      omega)
  constructor
  · rw [hfr3.1, hmid.1, hfr1.1, hfr2.1, hfr2.2]
  · rw [hfr3.2, hmid.2, hfr1.2, hfr2.1, hfr2.2]

/-! ## The DC twiddle factor is the constant pair (15709, 0) -/

theorem twiddle_angle_zero (N : Nat) : twiddle_angle N 0 = 0 := by
  simp [twiddle_angle, Int.zero_tdiv]

theorem twiddle_real_zero (N : Nat) : twiddle_real N 0 = 15709 := by
  unfold twiddle_real
  rw [twiddle_angle_zero]
  decide

theorem twiddle_imag_zero (N : Nat) : twiddle_imag N 0 = 0 := by
  unfold twiddle_imag
  rw [twiddle_angle_zero]
  decide

/-! ## The DC-path invariant: at positions that still feed bin 0, the
imaginary part is zero and the real parts of the two runs are ordered -/

def DCInv (N step : Nat) (sa sb : FFTState) : Prop :=
  ∀ p : Nat, p < N → p % step = 0 →
    sa.imag.getD p 0 = 0 ∧ sb.imag.getD p 0 = 0 ∧
    0 ≤ sa.real.getD p 0 ∧ sa.real.getD p 0 ≤ sb.real.getD p 0

theorem DCInv_halve (N step : Nat) (sa sb : FFTState) (h : DCInv N step sa sb) :
    DCInv N step (halve_state sa) (halve_state sb) := by
  intro p hp hmod
  obtain ⟨h1, h2, h3, h4⟩ := h p hp hmod
  unfold halve_state
  rw [halve_getD, halve_getD, halve_getD, halve_getD, h1, h2]
  refine ⟨by decide, by decide, ?_, ?_⟩
  · exact shiftRight_nonneg_of_nonneg _ _ h3
  · exact shiftRight_mono _ _ _ h4

theorem DCInv_stage_butterflies (N m2 : Nat) (hm2 : 0 < m2) (hdvd : 2 * m2 ∣ N)
    (sa sb : FFTState) (hla : LenSt N sa) (hlb : LenSt N sb)
    (hinv : DCInv N m2 sa sb) :
    DCInv N (2 * m2) (stage_butterflies N (2 * m2) m2 sa)
      (stage_butterflies N (2 * m2) m2 sb) := by
  intro p hp hmod
  obtain ⟨T, rfl⟩ : ∃ T, p = T * (2 * m2) :=
    ⟨p / (2 * m2), (Nat.div_mul_cancel (Nat.dvd_of_mod_eq_zero hmod)).symm⟩
  have hsm : (T + 1) * (2 * m2) = T * (2 * m2) + 2 * m2 := by rw [Nat.succ_mul]
  have hTN : (T + 1) * (2 * m2) ≤ N := by
    have hTlt : T < N / (2 * m2) := by
      rw [Nat.lt_div_iff_mul_lt hdvd]
      have hcomm : 2 * m2 * T = T * (2 * m2) := by ring
      omega
    calc (T + 1) * (2 * m2) ≤ (N / (2 * m2)) * (2 * m2) := Nat.mul_le_mul_right _ hTlt
      _ = N := Nat.div_mul_cancel hdvd
  have hda := stage_butterflies_dc N (2 * m2) m2 T rfl hm2 hdvd sa hla.1 hla.2 hTN
  have hdb := stage_butterflies_dc N (2 * m2) m2 T rfl hm2 hdvd sb hlb.1 hlb.2 hTN
  have hmod1 : T * (2 * m2) % m2 = 0 := by
    have he : T * (2 * m2) = T * 2 * m2 := by ring
    rw [he]
    exact Nat.mul_mod_left _ _
  have hmod2 : (T * (2 * m2) + m2) % m2 = 0 := by
    have he : T * (2 * m2) + m2 = (T * 2 + 1) * m2 := by ring
    rw [he]
    exact Nat.mul_mod_left _ _
  have hpa := hinv (T * (2 * m2)) (by omega) hmod1
  have hpm2 := hinv (T * (2 * m2) + m2) (by omega) hmod2
  rw [hda.1, hda.2, hdb.1, hdb.2, twiddle_real_zero, twiddle_imag_zero]
  obtain ⟨hia, hib, hra0, hrab⟩ := hpa
  obtain ⟨hia2, hib2, hra02, hrab2⟩ := hpm2
  have hsa := sub_sat_zero_right (mul_q15 (sa.real.getD (T * (2 * m2) + m2) 0) 15709)
    (mul_q15_range _ _)
  have hsb := sub_sat_zero_right (mul_q15 (sb.real.getD (T * (2 * m2) + m2) 0) 15709)
    (mul_q15_range _ _)
  simp only [hia, hib, hia2, hib2, mul_q15_zero_right, mul_q15_zero_left,
    add_sat_zero_both, hsa, hsb]
  refine ⟨trivial, trivial, ?_, ?_⟩
  · exact add_sat_nonneg _ _ hra0 (mul_q15_nonneg _ _ hra02 (by omega))
  · exact add_sat_mono _ _ _ _ hrab (mul_q15_mono_left _ _ _ (by omega) hrab2)

theorem LenSt_halve (K : Nat) (st : FFTState) (h : LenSt K st) : LenSt K (halve_state st) := by
  obtain ⟨h1, h2⟩ := h
  exact ⟨by simp [halve_state, h1], by simp [halve_state, h2]⟩

/-- Main induction for the amended C6: under equal per-stage rescale
decisions, the DC-path invariant survives every stage, and the two runs
keep equal scale counts. -/
theorem DCInv_after_stages (N bits : Nat) (hN : N = 2 ^ bits) (sa0 sb0 : FFTState)
    (hla : LenSt N sa0) (hlb : LenSt N sb0)
    (hflags : ∀ t, t < bits → stage_scale_flag N t sa0 = stage_scale_flag N t sb0)
    (hbase : DCInv N 1 sa0 sb0) :
    ∀ s, s ≤ bits →
      DCInv N (2 ^ s) (fft_after_stages N s sa0).1 (fft_after_stages N s sb0).1 ∧
      (fft_after_stages N s sa0).2 = (fft_after_stages N s sb0).2 := by
  intro s
  induction s with
  | zero =>
    intro _
    exact ⟨fun p hp hmod => hbase p hp (by omega), rfl⟩
  | succ s ih =>
    intro hs
    obtain ⟨hinv, hsc⟩ := ih (by omega)
    have hflag : need_scale_check N (fft_after_stages N s sa0).1 =
        need_scale_check N (fft_after_stages N s sb0).1 := hflags s (by omega)
    have hlsa := LenSt_after_stages N s N sa0 hla
    have hlsb := LenSt_after_stages N s N sb0 hlb
    have hm2pos : 0 < 2 ^ s := Nat.pos_pow_of_pos s (by omega)
    have hdvd : 2 * 2 ^ s ∣ N := by
      rw [hN]
      have h21 : (2:Nat) * 2 ^ s = 2 ^ (s + 1) := by rw [pow_succ]; ring
      rw [h21]
      exact pow_dvd_pow 2 (by omega)
    rw [fft_after_stages_succ, fft_after_stages_succ]
    unfold fft_stage
    have hm2eq : (2:Nat) ^ (s + 1) / 2 = 2 ^ s := by rw [pow_succ]; omega
    have hmeq : (2:Nat) ^ (s + 1) = 2 * 2 ^ s := by rw [pow_succ]; ring
    by_cases hf : need_scale_check N (fft_after_stages N s sb0).1 = true
    · have hra : stage_rescale N (fft_after_stages N s sa0) =
          (halve_state (fft_after_stages N s sa0).1, (fft_after_stages N s sa0).2 + 1) := by
        unfold stage_rescale
        rw [if_pos (hflag.trans hf)]
      have hrb : stage_rescale N (fft_after_stages N s sb0) =
          (halve_state (fft_after_stages N s sb0).1, (fft_after_stages N s sb0).2 + 1) := by
        unfold stage_rescale
        rw [if_pos hf]
      simp only [hra, hrb]
      constructor
      · rw [hm2eq, hmeq]
        exact DCInv_stage_butterflies N (2 ^ s) hm2pos hdvd _ _
          (LenSt_halve N _ hlsa) (LenSt_halve N _ hlsb) (DCInv_halve N (2 ^ s) _ _ hinv)
      · simp [hsc]
    · have hra : stage_rescale N (fft_after_stages N s sa0) = fft_after_stages N s sa0 := by
        unfold stage_rescale
        rw [if_neg (fun hc => hf (hflag ▸ hc))]
      have hrb : stage_rescale N (fft_after_stages N s sb0) = fft_after_stages N s sb0 := by
        unfold stage_rescale
        rw [if_neg hf]
      simp only [hra, hrb]
      constructor
      · rw [hm2eq, hmeq]
        exact DCInv_stage_butterflies N (2 ^ s) hm2pos hdvd _ _ hlsa hlsb hinv
      · exact hsc

/-! ## Input conversion facts and the DC output path -/

/-- The largest representable nonnegative amplitude per input width: the
int16_t maximum, or the 24-bit-significant maximum for the wide input (so
that the right shift by 8 stays inside int16_t and never wraps). -/
def inputMaxAmp : InputType → Int
  | .i16 => 32767
  | .i32 => 8388607

theorem input_to_q15_facts (it : InputType) (a b : Int) (ha : 0 ≤ a) (hab : a ≤ b)
    (hb : b ≤ inputMaxAmp it) :
    0 ≤ input_to_q15 it a ∧ input_to_q15 it a ≤ input_to_q15 it b ∧
      input_to_q15 it b ≤ 32767 := by
  cases it
  · simp only [input_to_q15, inputMaxAmp] at *
    omega
  · simp only [input_to_q15, inputMaxAmp] at *
    have h256 : ∀ x : Int, x >>> (8 : Nat) = x / 256 := fun x => by
      rw [Int.shiftRight_eq_div_pow]; norm_num
    rw [h256, h256, toInt16_id _ (by omega), toInt16_id _ (by omega)]
    omega

theorem mag_approx_nonneg_real (re : Int) (h : 0 ≤ re) : mag_approx re 0 = re := by
  simp only [mag_approx, Int.shiftRight_eq_div_pow, pow_one, Nat.cast_ofNat]
  split_ifs <;> omega

theorem mag_approx_nonpos_real (re : Int) (h : re ≤ 0) : mag_approx re 0 = -re := by
  simp only [mag_approx, Int.shiftRight_eq_div_pow, pow_one, Nat.cast_ofNat]
  split_ifs <;> omega

theorem getD0_map_range (f : Nat → Int) (n : Nat) :
    ((List.range (n + 1)).map f).getD 0 0 = f 0 := by
  rw [List.range_succ_eq_map]
  rfl

theorem compute_magnitude_u32_mono (ra ia rb ib2 : Int) (sc : Nat)
    (h : mag_approx ra ia ≤ mag_approx rb ib2) :
    compute_magnitude OutputType.u32 ra ia sc ≤ compute_magnitude OutputType.u32 rb ib2 sc := by
  simp only [compute_magnitude]
  have hm : mag_approx ra ia * 2 ^ sc ≤ mag_approx rb ib2 * 2 ^ sc :=
    mul_le_mul_of_nonneg_right h (by positivity)
  split_ifs <;> omega

theorem normalize_getD0_mono (N : Nat) (ra ia rb ib2 : List Int) (sc : Nat)
    (hshift : norm_shift_pass N ra ia sc = norm_shift_pass N rb ib2 sc)
    (hmag : mag_approx (ra.getD 0 0) (ia.getD 0 0) ≤ mag_approx (rb.getD 0 0) (ib2.getD 0 0)) :
    (normalize_magnitudes_uint16 N ra ia sc).getD 0 0 ≤
      (normalize_magnitudes_uint16 N rb ib2 sc).getD 0 0 := by
  simp only [normalize_magnitudes_uint16]
  rw [getD0_map_range, getD0_map_range, ← hshift]
  have hm : (mag_approx (ra.getD 0 0) (ia.getD 0 0) * 2 ^ sc) >>> norm_shift_pass N ra ia sc ≤
      (mag_approx (rb.getD 0 0) (ib2.getD 0 0) * 2 ^ sc) >>> norm_shift_pass N ra ia sc :=
    shiftRight_mono _ _ _ (mul_le_mul_of_nonneg_right hmag (by positivity))
  split_ifs <;> omega

theorem map_range_eq_imp (f g : Nat → Bool) (n : Nat)
    (h : (List.range n).map f = (List.range n).map g) : ∀ t, t < n → f t = g t := by
  intro t ht
  have h1 : ((List.range n).map f).getD t false = ((List.range n).map g).getD t false := by
    rw [h]
  rw [List.getD_eq_getElem?_getD, List.getD_eq_getElem?_getD, List.getElem?_map,
    List.getElem?_map, List.getElem?_range ht] at h1
  simpa using h1

/-! ## Claim C6: DC-bin monotonicity -/

/-- C6 counterexample: the claim as stated is false on the code.  At N = 8
with Bartlett window, narrow input and wide output, the constant blocks of
amplitudes 31929 ≤ 31930 give DC magnitudes 42334 > 42332: the larger
amplitude triggers a third block-floating-point rescale whose floor
truncation loses more than the final left shift restores. -/
theorem C6_counterexample :
    (0:Int) ≤ 31929 ∧ (31929:Int) ≤ 31930 ∧
    (magnitudes 8 InputType.i16 OutputType.u32 WindowType.Bartlett
        (List.replicate 8 31930)).getD 0 0 <
      (magnitudes 8 InputType.i16 OutputType.u32 WindowType.Bartlett
        (List.replicate 8 31929)).getD 0 0 := by
  refine ⟨by decide, by decide, by decide⟩

/-- C6 (amended): for every supported power-of-two N, both input widths
(the wide input restricted to its 24-bit-significant range so conversion
does not wrap), every window type and every output width, the DC-bin
magnitude of a constant block is non-decreasing in its amplitude,
provided the two runs take identical per-stage rescale decisions and, for
the narrow output, identical normalization shifts.  (Without those two
provisos the property fails, as the counterexample shows.) -/
theorem C6_dc_monotone_amended (bits : Nat) (it : InputType) (ot : OutputType)
    (w : WindowType) (a b : Int) (ha : 0 ≤ a) (hab : a ≤ b) (hb : b ≤ inputMaxAmp it)
    (hflags : run_scale_flags (2 ^ bits) it w (List.replicate (2 ^ bits) a) =
      run_scale_flags (2 ^ bits) it w (List.replicate (2 ^ bits) b))
    (hnorm : ot = OutputType.u16 →
      run_norm_shift (2 ^ bits) it w (List.replicate (2 ^ bits) a) =
      run_norm_shift (2 ^ bits) it w (List.replicate (2 ^ bits) b)) :
    (magnitudes (2 ^ bits) it ot w (List.replicate (2 ^ bits) a)).getD 0 0 ≤
    (magnitudes (2 ^ bits) it ot w (List.replicate (2 ^ bits) b)).getD 0 0 := by
  have hv := input_to_q15_facts it a b ha hab hb
  rcases Nat.eq_zero_or_pos bits with hb0 | hbpos
  · -- N = 1: no butterfly stages; the single bin is the windowed sample.
    subst hb0
    simp only [pow_zero] at hflags hnorm ⊢
    have hres : ∀ x : Int,
        fft_loop 1 (log2_n 1) (fft_input_state 1 it w (List.replicate 1 x)) =
        ({ real := [mul_q15 (input_to_q15 it x) (window_coeff w 1 0)], imag := [0] }, 0) :=
      fun x => rfl
    have hmag : mag_approx (mul_q15 (input_to_q15 it a) (window_coeff w 1 0)) 0 ≤
        mag_approx (mul_q15 (input_to_q15 it b) (window_coeff w 1 0)) 0 := by
      cases w
      · have hc : window_coeff WindowType.Bartlett 1 0 = (-2 : Int) := by decide
        rw [hc, mag_approx_nonpos_real _ (mul_q15_nonpos _ _ hv.1 (by omega)),
          mag_approx_nonpos_real _ (mul_q15_nonpos _ _ (le_trans hv.1 hv.2.1) (by omega))]
        have := mul_q15_anti_left _ _ (-2 : Int) (by omega) hv.2.1
        omega
      · have hc := hann_coeff_bounds 1 0
        simp only [window_coeff]
        rw [mag_approx_nonneg_real _ (mul_q15_nonneg _ _ hv.1 hc.1),
          mag_approx_nonneg_real _ (mul_q15_nonneg _ _ (le_trans hv.1 hv.2.1) hc.1)]
        exact mul_q15_mono_left _ _ _ hc.1 hv.2.1
      · have hc := blackman_harris_coeff_bounds 1 0
        simp only [window_coeff]
        rw [mag_approx_nonneg_real _ (mul_q15_nonneg _ _ hv.1 hc.1),
          mag_approx_nonneg_real _ (mul_q15_nonneg _ _ (le_trans hv.1 hv.2.1) hc.1)]
        exact mul_q15_mono_left _ _ _ hc.1 hv.2.1
    cases ot
    · simp only [magnitudes, hres]
      refine normalize_getD0_mono 1 _ _ _ _ 0 ?_ ?_
      · have hn := hnorm rfl
        simp only [run_norm_shift, hres] at hn
        exact hn
      · exact hmag
    · simp only [magnitudes, hres]
      have h12 : (1:Nat) / 2 + 1 = 0 + 1 := by norm_num
      rw [h12, getD0_map_range, getD0_map_range]
      exact compute_magnitude_u32_mono _ _ _ _ 0 hmag
  · -- N ≥ 2: the staged invariant argument.
    have hN2 : 2 ≤ 2 ^ bits := by
      calc 2 = 2 ^ 1 := by norm_num
        _ ≤ 2 ^ bits := Nat.pow_le_pow_right (by omega) hbpos
    have hNe : 2 ^ bits % 2 = 0 := by
      obtain ⟨c, hc⟩ : (2:Nat) ∣ 2 ^ bits := dvd_pow_self 2 (by omega)
      omega
    have hco : ∀ n : Nat, n < 2 ^ bits → 0 ≤ window_coeff w (2 ^ bits) n :=
      fun n hn => (window_coeff_bounds w (2 ^ bits) n hN2 hNe hn).1
    have hlog := log2_n_pow bits
    have hsA : fft_input_state (2 ^ bits) it w (List.replicate (2 ^ bits) a) =
        { real := bit_reversal_pass (2 ^ bits) bits
            (apply_window w (2 ^ bits) (List.replicate (2 ^ bits) (input_to_q15 it a))),
          imag := List.replicate (2 ^ bits) 0 } := by
      unfold fft_input_state
      rw [List.map_replicate, hlog]
    have hsB : fft_input_state (2 ^ bits) it w (List.replicate (2 ^ bits) b) =
        { real := bit_reversal_pass (2 ^ bits) bits
            (apply_window w (2 ^ bits) (List.replicate (2 ^ bits) (input_to_q15 it b))),
          imag := List.replicate (2 ^ bits) 0 } := by
      unfold fft_input_state
      rw [List.map_replicate, hlog]
    have hlenw : ∀ x : Int,
        (apply_window w (2 ^ bits) (List.replicate (2 ^ bits) x)).length = 2 ^ bits := by
      intro x
      unfold apply_window
      rw [List.length_mapIdx, List.length_replicate]
    have hmono : MonoD
        (bit_reversal_pass (2 ^ bits) bits
          (apply_window w (2 ^ bits) (List.replicate (2 ^ bits) (input_to_q15 it a))))
        (bit_reversal_pass (2 ^ bits) bits
          (apply_window w (2 ^ bits) (List.replicate (2 ^ bits) (input_to_q15 it b)))) := by
      refine MonoD_bit_reversal _ _ _ _ (by rw [hlenw, hlenw]) ?_
      exact MonoD_windowed w (2 ^ bits) _ _ hco ⟨hv.1, hv.2.1⟩
    have hbase : DCInv (2 ^ bits) 1
        { real := bit_reversal_pass (2 ^ bits) bits
            (apply_window w (2 ^ bits) (List.replicate (2 ^ bits) (input_to_q15 it a))),
          imag := List.replicate (2 ^ bits) 0 }
        { real := bit_reversal_pass (2 ^ bits) bits
            (apply_window w (2 ^ bits) (List.replicate (2 ^ bits) (input_to_q15 it b))),
          imag := List.replicate (2 ^ bits) 0 } := by
      intro p hp _
      exact ⟨getD_replicate_zero _ _, getD_replicate_zero _ _, (hmono p).1, (hmono p).2⟩
    have hlstA : LenSt (2 ^ bits)
        { real := bit_reversal_pass (2 ^ bits) bits
            (apply_window w (2 ^ bits) (List.replicate (2 ^ bits) (input_to_q15 it a))),
          imag := List.replicate (2 ^ bits) 0 } :=
      ⟨by rw [length_bit_reversal, hlenw], by simp⟩
    have hlstB : LenSt (2 ^ bits)
        { real := bit_reversal_pass (2 ^ bits) bits
            (apply_window w (2 ^ bits) (List.replicate (2 ^ bits) (input_to_q15 it b))),
          imag := List.replicate (2 ^ bits) 0 } :=
      ⟨by rw [length_bit_reversal, hlenw], by simp⟩
    have hflags2 : ∀ t, t < bits → stage_scale_flag (2 ^ bits) t
        { real := bit_reversal_pass (2 ^ bits) bits
            (apply_window w (2 ^ bits) (List.replicate (2 ^ bits) (input_to_q15 it a))),
          imag := List.replicate (2 ^ bits) 0 } =
        stage_scale_flag (2 ^ bits) t
        { real := bit_reversal_pass (2 ^ bits) bits
            (apply_window w (2 ^ bits) (List.replicate (2 ^ bits) (input_to_q15 it b))),
          imag := List.replicate (2 ^ bits) 0 } := by
      have h1 := hflags
      simp only [run_scale_flags, scale_flags, hsA, hsB, hlog] at h1
      exact map_range_eq_imp _ _ bits h1
    have hmain := DCInv_after_stages (2 ^ bits) bits rfl _ _ hlstA hlstB hflags2 hbase
      bits (le_refl bits)
    obtain ⟨hinv, hsceq⟩ := hmain
    have hdc := hinv 0 (by positivity) (Nat.zero_mod _)
    obtain ⟨hia, hib, hra0, hrab⟩ := hdc
    have hmag : mag_approx
        ((fft_after_stages (2 ^ bits) bits
          { real := bit_reversal_pass (2 ^ bits) bits
              (apply_window w (2 ^ bits) (List.replicate (2 ^ bits) (input_to_q15 it a))),
            imag := List.replicate (2 ^ bits) 0 }).1.real.getD 0 0)
        ((fft_after_stages (2 ^ bits) bits
          { real := bit_reversal_pass (2 ^ bits) bits
              (apply_window w (2 ^ bits) (List.replicate (2 ^ bits) (input_to_q15 it a))),
            imag := List.replicate (2 ^ bits) 0 }).1.imag.getD 0 0) ≤
        mag_approx
        ((fft_after_stages (2 ^ bits) bits
          { real := bit_reversal_pass (2 ^ bits) bits
              (apply_window w (2 ^ bits) (List.replicate (2 ^ bits) (input_to_q15 it b))),
            imag := List.replicate (2 ^ bits) 0 }).1.real.getD 0 0)
        ((fft_after_stages (2 ^ bits) bits
          { real := bit_reversal_pass (2 ^ bits) bits
              (apply_window w (2 ^ bits) (List.replicate (2 ^ bits) (input_to_q15 it b))),
            imag := List.replicate (2 ^ bits) 0 }).1.imag.getD 0 0) := by
      rw [hia, hib, mag_approx_nonneg_real _ hra0,
        mag_approx_nonneg_real _ (le_trans hra0 hrab)]
      exact hrab
    cases ot
    · simp only [magnitudes, fft_loop, hsA, hsB, hlog]
      rw [← hsceq]
      refine normalize_getD0_mono _ _ _ _ _ _ ?_ hmag
      have hn := hnorm rfl
      simp only [run_norm_shift, fft_loop, hsA, hsB, hlog] at hn
      rw [← hsceq] at hn
      exact hn
    · simp only [magnitudes, fft_loop, hsA, hsB, hlog]
      rw [← hsceq, getD0_map_range, getD0_map_range]
      exact compute_magnitude_u32_mono _ _ _ _ _ hmag

/-- Witness for C6 (amended) at a concrete configuration: N = 4, narrow
input, wide output, Bartlett window, amplitudes 100 ≤ 200; both runs take
the same (empty) rescale decisions. -/
theorem C6_dc_monotone_amended_witness :
    (magnitudes (2 ^ 2) InputType.i16 OutputType.u32 WindowType.Bartlett
        (List.replicate (2 ^ 2) 100)).getD 0 0 ≤
    (magnitudes (2 ^ 2) InputType.i16 OutputType.u32 WindowType.Bartlett
        (List.replicate (2 ^ 2) 200)).getD 0 0 :=
  C6_dc_monotone_amended 2 InputType.i16 OutputType.u32 WindowType.Bartlett 100 200
    (by decide) (by decide) (by decide) (by decide) (fun h => nomatch h)

/-! ## WS2811 transmission channel (src/leds/ws2811pio/ws2811pio.h)

Only the header of the driver is among the sources: it declares the
singleton pointer `instance_`, a constructor documented to call `abort()`
when an instance cannot be constructed, and `send`, documented so that a
subsequent call blocks until the prior frame is completely sent.  The
implementation file (`ws2811pio.cpp`) is not among the sources, so the
dynamic behavior is modelled from the specification (§4.3, §5). -/

/-- Modelled from the spec: the missing implementation's transmission
phases of §4.3 — Idle (no transfer in flight), Transmitting
(hardware-offloaded transfer in progress), Reset-Pending (the line is
held low for the latch gap). -/
inductive Phase where
  | Idle
  | Transmitting
  | ResetPending
deriving DecidableEq, Repr

/-- Modelled from the spec: the missing completion-notification handler.
Each hardware notification advances a transfer through its data phase and
its reset gap back to Idle. -/
def hwStep : Phase → Phase
  | .Idle => .Idle
  | .Transmitting => .ResetPending
  | .ResetPending => .Idle

/-- Iterated hardware notifications. -/
def hwIter : Nat → Phase → Phase
  | 0, p => p
  | n + 1, p => hwIter n (hwStep p)

/-- Modelled from the spec: the blocking wait of the missing `send`
implementation.  It consumes hardware completion steps while the channel
is not Idle; `fuel` bounds the wait and `none` models a wait that has not
terminated within the bound (a stuck transfer blocks forever by design). -/
def waitIdle : Nat → Phase → Option Phase
  | _, .Idle => some .Idle
  | 0, _ => none
  | fuel + 1, p => waitIdle fuel (hwStep p)

/-- Modelled from the spec: the missing `send(frame)` implementation —
if the channel is not Idle, block until it is; then start a new
Transmitting phase for the given frame and return without waiting for
the new transfer to complete. -/
def send (fuel : Nat) (p : Phase) : Option Phase :=
  (waitIdle fuel p).map (fun _ => Phase.Transmitting)

/-! ## Claims about the transmission channel -/

theorem waitIdle_spec (fuel : Nat) : ∀ p r, waitIdle fuel p = some r →
    r = Phase.Idle ∧ ∃ n, n ≤ fuel ∧ hwIter n p = Phase.Idle ∧
      ∀ m, m < n → hwIter m p ≠ Phase.Idle := by
  induction fuel with
  | zero =>
    intro p r h
    cases p
    · refine ⟨?_, 0, le_refl 0, rfl, by omega⟩
      simp [waitIdle] at h
      exact h.symm
    · simp [waitIdle] at h
    · simp [waitIdle] at h
  | succ fuel ih =>
    intro p r h
    cases p
    · refine ⟨?_, 0, by omega, rfl, by omega⟩
      simp [waitIdle] at h
      exact h.symm
    · rw [show waitIdle (fuel + 1) Phase.Transmitting =
          waitIdle fuel Phase.ResetPending from rfl] at h
      obtain ⟨hr, n, hn, hiter, hmin⟩ := ih _ _ h
      refine ⟨hr, n + 1, by omega, hiter, ?_⟩
      intro m hm
      match m with
      | 0 => exact fun hc => Phase.noConfusion hc
      | m + 1 => exact hmin m (by omega)
    · rw [show waitIdle (fuel + 1) Phase.ResetPending =
          waitIdle fuel Phase.Idle from rfl] at h
      obtain ⟨hr, n, hn, hiter, hmin⟩ := ih _ _ h
      refine ⟨hr, n + 1, by omega, hiter, ?_⟩
      intro m hm
      match m with
      | 0 => exact fun hc => Phase.noConfusion hc
      | m + 1 => exact hmin m (by omega)

/-- C7: whenever `send` returns, it returns in the Transmitting phase of
the new frame (it does not wait for that transfer to complete), and it
has waited exactly until the first moment the channel became Idle — so
the previous frame, including its reset gap, fully completed before the
new transfer started, and at most one frame is ever in flight.  A call
made during a transmission waits through Reset-Pending, at least two
completion notifications. -/
theorem C7_send_blocks_until_idle (fuel : Nat) (p q : Phase)
    (h : send fuel p = some q) :
    q = Phase.Transmitting ∧
    ∃ n, n ≤ fuel ∧ hwIter n p = Phase.Idle ∧
      (∀ m, m < n → hwIter m p ≠ Phase.Idle) ∧
      (p = Phase.Transmitting → hwIter 1 p = Phase.ResetPending ∧ 2 ≤ n) := by
  unfold send at h
  rcases hw : waitIdle fuel p with _ | r
  · rw [hw] at h
    simp at h
  · rw [hw] at h
    have h2 : Phase.Transmitting = q := Option.some.inj h
    obtain ⟨hr, n, hn, hiter, hmin⟩ := waitIdle_spec fuel p r hw
    refine ⟨h2.symm, n, hn, hiter, hmin, ?_⟩
    intro hp
    subst hp
    refine ⟨rfl, ?_⟩
    match n, hiter with
    | 0, hiter => exact absurd hiter (by simp [hwIter])
    | 1, hiter => exact absurd hiter (by simp [hwIter, hwStep])
    | n + 2, _ => omega

/-- Witness for C7: a `send` issued while a frame is in flight
(Transmitting) returns, after two completion notifications, in the
Transmitting phase of the new frame. -/
theorem C7_send_blocks_until_idle_witness :
    Phase.Transmitting = Phase.Transmitting ∧
    ∃ n, n ≤ 2 ∧ hwIter n Phase.Transmitting = Phase.Idle ∧
      (∀ m, m < n → hwIter m Phase.Transmitting ≠ Phase.Idle) ∧
      (Phase.Transmitting = Phase.Transmitting →
        hwIter 1 Phase.Transmitting = Phase.ResetPending ∧ 2 ≤ n) :=
  C7_send_blocks_until_idle 2 Phase.Transmitting Phase.Transmitting (by decide)

/-- Modelled from the spec: the observable outcome of the missing
constructor implementation — a constructed driver, or the `abort()` its
documentation promises when construction is impossible. -/
inductive CtorResult where
  | ok
  | aborted
deriving DecidableEq, Repr

/-- Modelled from the spec: the missing constructor body guarding the
process-wide singleton slot `instance_` (here a Boolean: is the slot
occupied?).  Constructing while an instance exists is an unrecoverable
configuration error that aborts instead of returning a usable object;
otherwise the constructor claims the slot. -/
def ws2811_construct (instance_ : Bool) : CtorResult × Bool :=
  if instance_ then (CtorResult.aborted, instance_)
  else (CtorResult.ok, true)

/-- C8: at most one WS2811Pio instance exists per process: construction
aborts exactly when an instance already occupies the singleton slot, the
first construction claims the slot, and no construction ever frees it —
so a second construction attempt never yields a usable object. -/
theorem C8_singleton_construction :
    (∀ s : Bool, (ws2811_construct s).1 = CtorResult.aborted ↔ s = true) ∧
    (ws2811_construct false).2 = true ∧ (ws2811_construct true).2 = true := by
  refine ⟨fun s => ?_, rfl, rfl⟩
  cases s <;> simp [ws2811_construct]
